import Mathlib

/-!
Verification of the multiset-compression core: the count-augmented binary
search tree (`multiset_codec/msbst.py`), the rANS coder (modelled from the
specification, since `multiset_codec/rans.py` is not part of the sources),
and the codec layer (`multiset_codec/codecs.py`).

The Python multiset is a nested tuple `(size, pivot, left, right)` with `()`
for the empty tree; we embed it as an inductive type.  Python integers are
embedded as `Nat`; every subtraction appearing in the sources is performed
on quantities that the validity invariants keep in order, and the theorems
carry those invariants, so `Nat` truncation coincides with Python integer
arithmetic on every input a theorem speaks about.
-/

set_option maxRecDepth 10000
set_option linter.unusedSectionVars false

namespace MultisetComp

/-- The multiset binary search tree of `msbst.py`: either the empty tuple
`()` or a node `(size, pivot, left, right)`. -/
inductive MSTree (α : Type) where
  | empty : MSTree α
  | node (size : Nat) (pivot : α) (left right : MSTree α) : MSTree α
deriving DecidableEq

namespace MSTree

variable {α : Type}

/-- `multiset[0] if multiset else 0`: root size field, 0 for the empty tree. -/
def size : MSTree α → Nat
  | .empty => 0
  | .node s _ _ _ => s

variable [LinearOrder α]

/-- `insert` of `msbst.py`: descend by comparison, increment `size` on the
way up; the empty tree becomes `(1, x, (), ())`. -/
def insert : MSTree α → α → MSTree α
  | .empty, x => .node 1 x .empty .empty
  | .node s y l r, x =>
      if x < y then .node (s + 1) y (insert l x) r
      else if x > y then .node (s + 1) y l (insert r x)
      else .node (s + 1) y l r

/-- `remove` of `msbst.py`.  The Python function unpacks the tuple, so the
empty tree raises; we return `none` there.  A subtree of size 1 collapses to
the empty tree. -/
def remove : MSTree α → α → Option (MSTree α)
  | .empty, _ => none
  | .node s y l r, x =>
      if s = 1 then some .empty
      else if x < y then (remove l x).map (fun l2 => .node (s - 1) y l2 r)
      else if x > y then (remove r x).map (fun r2 => .node (s - 1) y l r2)
      else some (.node (s - 1) y l r)

/-- `forward_lookup` of `msbst.py`: cumulative count and frequency of `x`;
reaching an empty subtree raises (`none`). -/
def forward_lookup : MSTree α → α → Option (Nat × Nat)
  | .empty, _ => none
  | .node s y l r, x =>
      if x > y then
        (forward_lookup r x).map (fun p => (s - r.size + p.1, p.2))
      else if x < y then
        forward_lookup l x
      else
        some (l.size, s - l.size - r.size)

/-- `reverse_lookup` of `msbst.py`: slice and symbol at index `idx`.  The
assertion `0 <= idx < size` fails (`none`) out of range, in particular on
the empty tree. -/
def reverse_lookup : MSTree α → Nat → Option ((Nat × Nat) × α)
  | .empty, _ => none
  | .node s y l r, idx =>
      if s ≤ idx then none
      else
        let ys := l.size
        let yf := s - ys - r.size
        if idx < ys then reverse_lookup l idx
        else if ys + yf ≤ idx then
          (reverse_lookup r (idx - (s - r.size))).map
            (fun q => ((q.1.1 + (s - r.size), q.1.2), q.2))
        else some ((ys, yf), y)

/-- `insert_then_forward_lookup` of `msbst.py`: both operations in one
descent; the slice reflects the tree after insertion. -/
def insert_then_forward_lookup : MSTree α → α → MSTree α × (Nat × Nat)
  | .empty, x => (.node 1 x .empty .empty, (0, 1))
  | .node s y l r, x =>
      if x > y then
        let p := insert_then_forward_lookup r x
        ((.node (s + 1) y l p.1), ((s + 1) - p.1.size + p.2.1, p.2.2))
      else if x < y then
        let p := insert_then_forward_lookup l x
        ((.node (s + 1) y p.1 r), (p.2.1, p.2.2))
      else
        ((.node (s + 1) y l r), (l.size, (s + 1) - l.size - r.size))

/-- `(size, y, left, right) if size else ()`: the node collapse used by
`reverse_lookup_then_remove`. -/
def mkNode (s : Nat) (y : α) (l r : MSTree α) : MSTree α :=
  if s = 0 then .empty else .node s y l r

/-- `reverse_lookup_then_remove` of `msbst.py`: both operations in one
descent; the slice reflects the tree before removal.  The Python function
unpacks the tuple, so the empty tree raises (`none`). -/
def reverse_lookup_then_remove : MSTree α → Nat → Option (MSTree α × (Nat × Nat) × α)
  | .empty, _ => none
  | .node s y l r, idx =>
      let ys := l.size
      let yf := s - ys - r.size
      if idx < ys then
        (reverse_lookup_then_remove l idx).map
          (fun q => (mkNode (s - 1) y q.1 r, q.2.1, q.2.2))
      else if ys + yf ≤ idx then
        (reverse_lookup_then_remove r (idx - (s - r.size))).map
          (fun q => (mkNode (s - 1) y l q.1, (q.2.1.1 + (s - r.size), q.2.1.2), q.2.2))
      else
        some (mkNode (s - 1) y l r, (ys, yf), y)

/-- `build_multiset` of `msbst.py`: fold `insert` over the sequence. -/
def build_multiset (xs : List α) : MSTree α :=
  xs.foldl insert .empty

/-- `to_sequence` of `msbst.py`: in-order flattening, each pivot repeated
`size - left.size - right.size` times. -/
def to_sequence : MSTree α → List α
  | .empty => []
  | .node s y l r =>
      to_sequence l ++ List.replicate (s - l.size - r.size) y ++ to_sequence r

/-- All pivots stored in the tree satisfy `p`. -/
def allNodes (p : α → Bool) : MSTree α → Bool
  | .empty => true
  | .node _ y l r => p y && allNodes p l && allNodes p r

variable [LinearOrder α]

/-- The structural invariant actually maintained by the code: at every node
the size field is positive and at least `left.size + right.size` (so the
pivot's implicit multiplicity is nonnegative), and the strict BST order
holds.  A pivot of multiplicity zero is allowed: `reverse_lookup_then_remove`
produces such nodes. -/
def validB : MSTree α → Bool
  | .empty => true
  | .node s y l r =>
      decide (l.size + r.size ≤ s) && decide (1 ≤ s) &&
      allNodes (fun z => decide (z < y)) l &&
      allNodes (fun z => decide (y < z)) r &&
      validB l && validB r

/-- The invariant as stated by the specification: additionally every pivot
has multiplicity at least one, i.e. `left.size + right.size < size`. -/
def strongValidB : MSTree α → Bool
  | .empty => true
  | .node s y l r =>
      decide (l.size + r.size < s) &&
      allNodes (fun z => decide (z < y)) l &&
      allNodes (fun z => decide (y < z)) r &&
      strongValidB l && strongValidB r

/-- `x` is stored at some node of the tree (possibly with multiplicity 0). -/
def hasPivot : MSTree α → α → Bool
  | .empty, _ => false
  | .node _ y l r, x => decide (x = y) || hasPivot l x || hasPivot r x

/-- Multiplicity of `x` in the multiset denoted by the tree. -/
def count (m : MSTree α) (x : α) : Nat :=
  (to_sequence m).count x

/-- Number of elements of the multiset strictly below `x` (the cumulative
count `start` of the slice of `x`). -/
def countLt (m : MSTree α) (x : α) : Nat :=
  (to_sequence m).countP (fun z => decide (z < x))

/-- Trees reachable from the empty multiset by the operations the codec
uses: `insert`, `remove` of a present symbol, the fused
insert-then-forward-lookup, and reverse-lookup-then-remove at a valid
index. -/
inductive Reachable : MSTree α → Prop where
  | empty : Reachable .empty
  | insert (m : MSTree α) (x : α) : Reachable m → Reachable (insert m x)
  | remove (m : MSTree α) (x : α) (m2 : MSTree α) :
      Reachable m → 1 ≤ count m x → remove m x = some m2 → Reachable m2
  | itfl (m : MSTree α) (x : α) :
      Reachable m → Reachable (insert_then_forward_lookup m x).1
  | rltr (m : MSTree α) (idx : Nat) (m2 : MSTree α) (sl : Nat × Nat) (x : α) :
      Reachable m → idx < m.size →
      reverse_lookup_then_remove m idx = some (m2, sl, x) → Reachable m2

end MSTree

namespace Rans

/-- Modelled from the spec: `RANS_L = 2^32`, the renormalization lower bound
of the missing `multiset_codec/rans.py` (spec section 4.A). -/
def RANS_L : Nat := 2 ^ 32

/-- Modelled from the spec: `RANS_BASE = 2^32`, the radix; one
renormalization step moves 32 bits between head and tail. -/
def RANS_BASE : Nat := 2 ^ 32

/-- Modelled from the spec: `RANS_H = 2^64`, the exclusive upper bound of a
lane value. -/
def RANS_H : Nat := 2 ^ 64

/-- Modelled from the spec: the body of the encode renormalization loop of
the missing `rans.py`, iterated under an explicit structural fuel — while
the lane is at least `max_h`, push its 32 low bits onto the tail.  Each
executed iteration strictly decreases the lane (`h / 2^32 < h` when
`0 < h`), so a fuel of `h` always outlasts the loop guard;
`pushGo_irrel` below shows any fuel of at least `h` computes the same
value, so the fuel is semantically invisible.  The extra `0 < h` guard
only makes the loop total where the spec loop would not terminate
(`max_h = 0`); every use keeps `max_h ≥ RANS_BASE`. -/
def pushGo (fuel maxH h : Nat) (tail : List Nat) : Nat × List Nat :=
  match fuel with
  | 0 => (h, tail)
  | Nat.succ fuel =>
      if maxH ≤ h ∧ 0 < h then
        pushGo fuel maxH (h / RANS_BASE) (h % RANS_BASE :: tail)
      else (h, tail)

/-- Modelled from the spec: the encode renormalization loop, run with the
always-sufficient fuel `h`.  Lane values are `Nat`; the invariant theorems
below show every value stays under `RANS_H`, so this agrees with 64-bit
unsigned arithmetic. -/
def pushLoop (maxH : Nat) (h : Nat) (tail : List Nat) : Nat × List Nat :=
  pushGo h maxH h tail

/-- Modelled from the spec: the decode renormalization loop — while the lane
is below `RANS_L`, pull 32 bits from the tail.  On an exhausted tail the
spec raises `StateUnderflow`; the model stops pulling there. -/
def pullLoop : Nat → List Nat → Nat × List Nat
  | h, [] => (h, [])
  | h, w :: rest =>
      if h < RANS_L then pullLoop (RANS_BASE * h + w) rest else (h, w :: rest)

/-- Modelled from the spec: single-lane rANS encode of the slice
`[start, start + freq)` whose CDF total is `prec` (spec section 4.F: the
precision passed to the coder is the total itself, the multiset size, not a
bit count).  Renormalize while `h ≥ (RANS_L / prec) · RANS_BASE · freq`,
then map `h` to `(h / freq) · prec + h % freq + start`. -/
def encode1 (h : Nat) (tail : List Nat) (start freq prec : Nat) : Nat × List Nat :=
  let p := pushLoop (RANS_L / prec * RANS_BASE * freq) h tail
  (p.1 / freq * prec + p.1 % freq + start, p.2)

/-- Modelled from the spec: the `pop` closure returned by `rans.decode` —
the CDF index is `h % prec`, the lane becomes
`freq · (h / prec) + (h % prec) - start`, then the pull loop runs. -/
def pop1 (h : Nat) (tail : List Nat) (start freq prec : Nat) : Nat × List Nat :=
  pullLoop (freq * (h / prec) + h % prec - start) tail

/-- An ANS state: the vector of lane values (head) and the 32-bit word
stack (tail).  Lanes share one tail; this model fixes the block order by
encoding lanes left to right and decoding them right to left. -/
abbrev AnsState : Type := List Nat × List Nat

/-- Modelled from the spec: `base_message(shape)` — every lane initialized
to `RANS_L`, empty tail. -/
def base_message (n : Nat) : AnsState := (List.replicate n RANS_L, [])

/-- Modelled from the spec: vectorized encode with one scalar
`(start, freq, prec)` broadcast to every lane, threading the shared tail
through the lanes from left to right. -/
def encodeLanes (heads : List Nat) (tail : List Nat) (start freq prec : Nat) :
    List Nat × List Nat :=
  match heads with
  | [] => ([], tail)
  | h :: hs =>
      let p := encode1 h tail start freq prec
      let q := encodeLanes hs p.2 start freq prec
      (p.1 :: q.1, q.2)

/-- Modelled from the spec: vectorized encode with per-lane starts (used by
`ByteArray`, where each of the first `n` lanes carries one byte).  `none`
when the shapes disagree, which in numpy is a broadcast error. -/
def encodeLanesVec (heads : List Nat) (tail : List Nat) (starts : List Nat)
    (freq prec : Nat) : Option (List Nat × List Nat) :=
  match heads, starts with
  | [], [] => some ([], tail)
  | h :: hs, s :: ss =>
      let p := encode1 h tail s freq prec
      (encodeLanesVec hs p.2 ss freq prec).map (fun q => (p.1 :: q.1, q.2))
  | _, _ => none

/-- Modelled from the spec: vectorized uniform decode — per lane, the CDF
index `h % prec` itself is the symbol and the slice is `(cf, 1)`; lanes are
decoded right to left, mirroring the encode order of the shared tail.
Returns the new state and the per-lane symbols. -/
def decodeLanesUniform (heads : List Nat) (tail : List Nat) (prec : Nat) :
    (List Nat × List Nat) × List Nat :=
  match heads with
  | [] => (([], tail), [])
  | h :: hs =>
      let q := decodeLanesUniform hs tail prec
      let cf := h % prec
      let p := pop1 h q.1.2 cf 1 prec
      ((p.1 :: q.1.1, p.2), cf :: q.2)

/-- Modelled from the spec: the vectorized `pop` with one scalar
`(start, freq, prec)` for every lane, decoding lanes right to left (the
mirror of `encodeLanes`). -/
def popLanes (heads : List Nat) (tail : List Nat) (start freq prec : Nat) :
    List Nat × List Nat :=
  match heads with
  | [] => ([], tail)
  | h :: hs =>
      let q := popLanes hs tail start freq prec
      let p := pop1 h q.2 start freq prec
      (p.1 :: q.1, p.2)

/-- Modelled from the spec: `rans.encode` on a state, scalar arguments. -/
def encode (st : AnsState) (start freq prec : Nat) : AnsState :=
  encodeLanes st.1 st.2 start freq prec

/-- A sequence of `rans.encode` operations applied left to right, as in the
encode phase of `test_rans`. -/
def encList (st : AnsState) (ops : List (Nat × Nat × Nat)) : AnsState :=
  ops.foldl (fun s op => encode s op.1 op.2.1 op.2.2) st

/-- The matching decode-and-pop of one operation on every lane. -/
def decOp (st : AnsState) (op : Nat × Nat × Nat) : AnsState :=
  popLanes st.1 st.2 op.1 op.2.1 op.2.2

/-- A sequence of decode-and-pop operations applied left to right, as in the
decode phase of `test_rans` (which feeds the encoded triples in reverse). -/
def decList (st : AnsState) (ops : List (Nat × Nat × Nat)) : AnsState :=
  ops.foldl decOp st

end Rans

namespace Codecs

open Rans

/-- A codec as in `codecs.py`: an encode/decode pair over the ANS state;
`none` models a raised exception. -/
structure SymCodec (α : Type) where
  enc : AnsState → α → Option AnsState
  dec : AnsState → Option (AnsState × α)

/-- `Uniform(prec).encode` of `codecs.py`: `rans.encode(state, x, 1, prec)`. -/
def uniformEncode (prec : Nat) (st : AnsState) (x : Nat) : AnsState :=
  Rans.encode st x 1 prec

/-- `Uniform(prec).decode` of `codecs.py`: decode the raw CDF index in every
lane and pop with `freq = 1`. -/
def uniformDecode (prec : Nat) (st : AnsState) : AnsState × List Nat :=
  let q := decodeLanesUniform st.1 st.2 prec
  (q.1, q.2)

/-- `ByteArray(max_array_size).encode` of `codecs.py`: the bytes are encoded
in parallel on the first `n` lanes with `Uniform(256)` (via the substack
view `h[:size]`), then the length on the first lane with
`Uniform(max_array_size)` (view `h[:1]`). -/
def byteArrayEncode (maxSize : Nat) (st : AnsState) (bytes : List Nat) :
    Option AnsState :=
  let n := bytes.length
  match encodeLanesVec (st.1.take n) st.2 bytes 1 256 with
  | none => none
  | some (sub, t1) =>
      match sub ++ st.1.drop n with
      | [] => none
      | h0 :: rest =>
          let p := encode1 h0 t1 n 1 maxSize
          some (p.1 :: rest, p.2)

/-- `ByteArray(max_array_size).decode` of `codecs.py`: decode the length on
the first lane, then the bytes in parallel on the first `size` lanes. -/
def byteArrayDecode (maxSize : Nat) (st : AnsState) :
    Option (AnsState × List Nat) :=
  match st.1 with
  | [] => none
  | h0 :: rest =>
      let n := h0 % maxSize
      let p := pop1 h0 st.2 n 1 maxSize
      let head1 := p.1 :: rest
      let q := decodeLanesUniform (head1.take n) p.2 256
      some ((q.1.1 ++ head1.drop n, q.1.2), q.2)

variable {α : Type} [LinearOrder α]

/-- `SamplingWithoutReplacement().encode` of `codecs.py` on the first lane
(substack view `h[:1]`): fused insert-and-lookup, then rANS encode at
precision equal to the new multiset size. -/
def sworEncode (st : AnsState) (x : α) (m : MSTree α) :
    Option (AnsState × MSTree α) :=
  match st.1 with
  | [] => none
  | h0 :: rest =>
      let q := MSTree.insert_then_forward_lookup m x
      let p := encode1 h0 st.2 q.2.1 q.2.2 q.1.size
      some ((p.1 :: rest, p.2), q.1)

/-- `SamplingWithoutReplacement().decode` of `codecs.py` on the first lane:
read the CDF index at precision equal to the current multiset size, fused
reverse-lookup-and-remove, then pop. -/
def sworDecode (st : AnsState) (m : MSTree α) :
    Option (AnsState × α × MSTree α) :=
  match st.1 with
  | [] => none
  | h0 :: rest =>
      let cf := h0 % m.size
      match MSTree.reverse_lookup_then_remove m cf with
      | none => none
      | some (m2, sl, x) =>
          let p := pop1 h0 st.2 sl.1 sl.2 m.size
          some ((p.1 :: rest, p.2), x, m2)

/-- `Multiset(symbol_codec).encode` of `codecs.py`: while the multiset is
non-empty, sample a symbol without replacement by ANS-decoding, then encode
it with the symbol codec.  The loop is driven by a fuel equal to the root
size, which on valid trees is exactly the number of iterations of the
Python `while multiset:` loop. -/
def multisetEncodeAux (C : SymCodec α) : Nat → AnsState → MSTree α → Option AnsState
  | 0, st, m => if m = .empty then some st else none
  | Nat.succ k, st, m =>
      if m = .empty then some st else
      match sworDecode st m with
      | none => none
      | some (st1, x, m1) =>
          match C.enc st1 x with
          | none => none
          | some st2 => multisetEncodeAux C k st2 m1

/-- `Multiset(symbol_codec).encode` of `codecs.py`. -/
def multisetEncode (C : SymCodec α) (st : AnsState) (m : MSTree α) :
    Option AnsState :=
  multisetEncodeAux C m.size st m

/-- `Multiset(symbol_codec).decode` of `codecs.py`: `multiset_size` times,
decode a symbol with the symbol codec and encode the sampling step back
(the bits-back step), growing the multiset by insertion. -/
def multisetDecode (C : SymCodec α) (st : AnsState) :
    Nat → Option (AnsState × MSTree α)
  | 0 => some (st, .empty)
  | Nat.succ k =>
      match multisetDecode C st k with
      | none => none
      | some (st1, m1) =>
          match C.dec st1 with
          | none => none
          | some (st2, x) => sworEncode st2 x m1

/-- Executable sufficient condition under which the bits-back loop is
exactly invertible: at every sampling step the first lane lies in the
renormalization-safe band
`[(RANS_L / size) · size, (RANS_L / size) · size · RANS_BASE)` for the
current multiset size, and the symbol codec round-trips the sampled symbol
at the state it is given. -/
def multisetSafeAux (C : SymCodec α) :
    Nat → AnsState → MSTree α → Bool
  | 0, _, m => decide (m = .empty)
  | Nat.succ k, st, m =>
      if m = .empty then true else
      match st.1 with
      | [] => false
      | h0 :: _ =>
          decide (RANS_L / m.size * m.size ≤ h0) &&
          decide (h0 < RANS_L / m.size * m.size * RANS_BASE) &&
          decide (st.2.headD 0 < RANS_BASE) &&
          (match sworDecode st m with
           | none => false
           | some (st1, x, m1) =>
               match C.enc st1 x with
               | none => false
               | some st2 =>
                   decide (C.dec st2 = some (st1, x)) &&
                   multisetSafeAux C k st2 m1)

/-- The safety condition for a whole multiset encode. -/
def multisetSafe (C : SymCodec α) (st : AnsState)
    (m : MSTree α) : Bool :=
  multisetSafeAux C m.size st m

/-- `Uniform(prec)` of `codecs.py` packaged as a symbol codec over `Nat`, a
concrete instance of the `C` that `Multiset(C)` composes with: encode is
the uniform encode, decode reads the per-lane symbol of a single-lane
state. -/
def uniCodec (prec : Nat) : SymCodec Nat where
  enc st x := some (uniformEncode prec st x)
  dec st :=
    match uniformDecode prec st with
    | (st2, [c]) => some (st2, c)
    | _ => none

end Codecs

namespace MSTree

variable {α : Type} [LinearOrder α]

/-! Basic facts about sizes, validity and the flattened sequence. -/

@[simp] theorem size_empty : (MSTree.empty : MSTree α).size = 0 := rfl

@[simp] theorem size_node (s : Nat) (y : α) (l r : MSTree α) :
    (MSTree.node s y l r).size = s := rfl

theorem pairwise_le_replicate (n : Nat) (y : α) :
    (List.replicate n y).Pairwise (fun a b : α => a ≤ b) := by
  induction n with
  | zero => simp
  | succ k ih =>
    rw [List.replicate_succ, List.pairwise_cons]
    exact ⟨fun b hb => le_of_eq (List.eq_of_mem_replicate hb).symm, ih⟩

theorem size_insert (m : MSTree α) (x : α) : (insert m x).size = m.size + 1 := by
  cases m with
  | empty => rfl
  | node s y l r =>
    unfold insert
    by_cases h1 : x < y
    · simp [h1]
    · by_cases h2 : x > y <;> simp [h1, h2]

theorem allNodes_insert {p : α → Bool} {m : MSTree α} {x : α}
    (hm : allNodes p m = true) (hx : p x = true) :
    allNodes p (insert m x) = true := by
  induction m with
  | empty => simp [insert, allNodes, hx]
  | node s y l r ihl ihr =>
    simp only [allNodes, Bool.and_eq_true] at hm
    unfold insert
    by_cases h1 : x < y
    · simp [h1, allNodes, hm.1.1, hm.2, ihl hm.1.2]
    · by_cases h2 : x > y
      · simp [h1, h2, allNodes, hm.1.1, hm.1.2, ihr hm.2]
      · simp [h1, h2, allNodes, hm.1.1, hm.1.2, hm.2]

theorem validB_insert {m : MSTree α} (hm : validB m = true) (x : α) :
    validB (insert m x) = true := by
  induction m with
  | empty => simp [insert, validB, allNodes, size]
  | node s y l r ihl ihr =>
    simp only [validB, Bool.and_eq_true, decide_eq_true_iff] at hm
    obtain ⟨⟨⟨⟨⟨hsz, hpos⟩, hal⟩, har⟩, hvl⟩, hvr⟩ := hm
    unfold insert
    by_cases h1 : x < y
    · simp only [h1, if_pos]
      simp only [validB, Bool.and_eq_true, decide_eq_true_iff, size_insert]
      refine ⟨⟨⟨⟨⟨by omega, by omega⟩, allNodes_insert hal (by simpa using h1)⟩, har⟩,
        ihl hvl⟩, hvr⟩
    · by_cases h2 : x > y
      · simp only [h1, h2, if_neg, if_pos, not_false_iff]
        simp only [validB, Bool.and_eq_true, decide_eq_true_iff, size_insert]
        exact ⟨⟨⟨⟨⟨by omega, by omega⟩, hal⟩, allNodes_insert har (by simpa using h2)⟩,
          hvl⟩, ihr hvr⟩
      · simp only [h1, h2, if_neg, not_false_iff]
        simp only [validB, Bool.and_eq_true, decide_eq_true_iff]
        exact ⟨⟨⟨⟨⟨by omega, by omega⟩, hal⟩, har⟩, hvl⟩, hvr⟩

theorem mem_to_sequence {p : α → Bool} {m : MSTree α}
    (hm : allNodes p m = true) : ∀ z ∈ to_sequence m, p z = true := by
  induction m with
  | empty => simp [to_sequence]
  | node s y l r ihl ihr =>
    simp only [allNodes, Bool.and_eq_true] at hm
    intro z hz
    simp only [to_sequence, List.mem_append, List.mem_replicate] at hz
    rcases hz with (hz | hz) | hz
    · exact ihl hm.1.2 z hz
    · rw [hz.2]; exact hm.1.1
    · exact ihr hm.2 z hz

theorem length_to_sequence {m : MSTree α} (hm : validB m = true) :
    (to_sequence m).length = m.size := by
  induction m with
  | empty => rfl
  | node s y l r ihl ihr =>
    simp only [validB, Bool.and_eq_true, decide_eq_true_iff] at hm
    obtain ⟨⟨⟨⟨⟨hsz, hpos⟩, _⟩, _⟩, hvl⟩, hvr⟩ := hm
    simp only [to_sequence, List.length_append, List.length_replicate,
      ihl hvl, ihr hvr, size_node]
    omega

theorem eq_empty_of_size_eq_zero {m : MSTree α} (hm : validB m = true)
    (h : m.size = 0) : m = .empty := by
  cases m with
  | empty => rfl
  | node s y l r =>
    simp only [validB, Bool.and_eq_true, decide_eq_true_iff] at hm
    simp only [size_node] at h
    omega

theorem to_sequence_insert_perm {m : MSTree α} (hm : validB m = true) (x : α) :
    List.Perm (to_sequence (insert m x)) (x :: to_sequence m) := by
  induction m with
  | empty => simp [insert, to_sequence]
  | node s y l r ihl ihr =>
    simp only [validB, Bool.and_eq_true, decide_eq_true_iff] at hm
    obtain ⟨⟨⟨⟨⟨hsz, hpos⟩, _⟩, _⟩, hvl⟩, hvr⟩ := hm
    unfold insert
    by_cases h1 : x < y
    · simp only [h1, if_pos, to_sequence, size_insert, size_node]
      have hfreq : s + 1 - (l.size + 1) - r.size = s - l.size - r.size := by omega
      rw [hfreq]
      refine ((((ihl hvl).append_right _).append_right _).trans ?_)
      simp
    · by_cases h2 : x > y
      · simp only [h1, h2, if_neg, if_pos, not_false_iff, to_sequence,
          size_insert, size_node]
        have hfreq : s + 1 - l.size - (r.size + 1) = s - l.size - r.size := by omega
        rw [hfreq]
        refine (List.Perm.append_left _ (ihr hvr)).trans ?_
        exact List.perm_middle
      · have hxy : x = y := le_antisymm (not_lt.mp h2) (not_lt.mp h1)
        simp only [h1, h2, if_neg, not_false_iff, to_sequence, size_node]
        have hfreq : s + 1 - l.size - r.size = (s - l.size - r.size) + 1 := by omega
        rw [hfreq, hxy, List.replicate_succ]
        have hmid : List.Perm
            (to_sequence l ++ y ::
              (List.replicate (s - l.size - r.size) y ++ to_sequence r))
            (y :: (to_sequence l ++
              (List.replicate (s - l.size - r.size) y ++ to_sequence r))) :=
          List.perm_middle
        simpa [List.append_assoc] using hmid

theorem sorted_to_sequence {m : MSTree α} (hm : validB m = true) :
    (to_sequence m).Sorted (· ≤ ·) := by
  induction m with
  | empty => simp [to_sequence]
  | node s y l r ihl ihr =>
    simp only [validB, Bool.and_eq_true, decide_eq_true_iff] at hm
    obtain ⟨⟨⟨⟨⟨hsz, hpos⟩, hal⟩, har⟩, hvl⟩, hvr⟩ := hm
    have hlmem : ∀ z ∈ to_sequence l, z < y := fun z hz => by
      simpa using mem_to_sequence hal z hz
    have hrmem : ∀ z ∈ to_sequence r, y < z := fun z hz => by
      simpa using mem_to_sequence har z hz
    show List.Sorted (fun a b : α => a ≤ b)
      (to_sequence l ++ List.replicate (s - l.size - r.size) y ++ to_sequence r)
    rw [List.append_assoc]
    have hmr : List.Sorted (fun a b : α => a ≤ b)
        (List.replicate (s - l.size - r.size) y ++ to_sequence r) := by
      refine List.pairwise_append.mpr ⟨pairwise_le_replicate _ _, ihr hvr, ?_⟩
      intro a ha b hb
      rw [List.eq_of_mem_replicate ha]
      exact le_of_lt (hrmem b hb)
    refine List.pairwise_append.mpr ⟨ihl hvl, hmr, ?_⟩
    intro a ha b hb
    rcases List.mem_append.mp hb with hb | hb
    · rw [List.eq_of_mem_replicate hb]
      exact le_of_lt (hlmem a ha)
    · exact le_of_lt (lt_trans (hlmem a ha) (hrmem b hb))

/-! Counting the flattened sequence at a node, by position of the symbol. -/

theorem hasPivot_allNodes {p : α → Bool} {m : MSTree α} (hp : allNodes p m = true)
    {x : α} (hx : hasPivot m x = true) : p x = true := by
  induction m with
  | empty => simp [hasPivot] at hx
  | node s y l r ihl ihr =>
    simp only [allNodes, Bool.and_eq_true] at hp
    simp only [hasPivot, Bool.or_eq_true, decide_eq_true_iff] at hx
    rcases hx with (hx | hx) | hx
    · rw [hx]; exact hp.1.1
    · exact ihl hp.1.2 hx
    · exact ihr hp.2 hx

theorem hasPivot_insert_self (m : MSTree α) (x : α) :
    hasPivot (insert m x) x = true := by
  induction m with
  | empty => simp [insert, hasPivot]
  | node s y l r ihl ihr =>
    unfold insert
    by_cases h1 : x < y
    · simp [h1, hasPivot, ihl]
    · by_cases h2 : x > y
      · simp [h1, h2, hasPivot, ihr]
      · have : x = y := le_antisymm (not_lt.mp h2) (not_lt.mp h1)
        simp [h1, h2, hasPivot, this]

theorem countP_to_sequence_all {p : α → Bool} {m : MSTree α}
    (hm : validB m = true) (h : ∀ z ∈ to_sequence m, p z = true) :
    (to_sequence m).countP p = m.size := by
  rw [List.countP_eq_length.mpr h, length_to_sequence hm]

theorem countLt_node_lt {s : Nat} {y : α} {l r : MSTree α}
    (hm : validB (MSTree.node s y l r) = true) {x : α} (hxy : x < y) :
    countLt (MSTree.node s y l r) x = countLt l x := by
  simp only [validB, Bool.and_eq_true, decide_eq_true_iff] at hm
  obtain ⟨⟨⟨⟨⟨hsz, hpos⟩, hal⟩, har⟩, hvl⟩, hvr⟩ := hm
  simp only [countLt, to_sequence, List.countP_append]
  have h1 : (List.replicate (s - l.size - r.size) y).countP
      (fun z => decide (z < x)) = 0 := by
    refine List.countP_eq_zero.mpr ?_
    intro a ha
    rw [List.eq_of_mem_replicate ha]
    simpa using not_lt.mpr (le_of_lt hxy)
  have h2 : (to_sequence r).countP (fun z => decide (z < x)) = 0 := by
    refine List.countP_eq_zero.mpr ?_
    intro a ha
    have : y < a := by simpa using mem_to_sequence har a ha
    simpa using not_lt.mpr (le_of_lt (lt_trans hxy this))
  rw [h1, h2]
  simp [countLt]

theorem countLt_node_self {s : Nat} {y : α} {l r : MSTree α}
    (hm : validB (MSTree.node s y l r) = true) :
    countLt (MSTree.node s y l r) y = l.size := by
  simp only [validB, Bool.and_eq_true, decide_eq_true_iff] at hm
  obtain ⟨⟨⟨⟨⟨hsz, hpos⟩, hal⟩, har⟩, hvl⟩, hvr⟩ := hm
  simp only [countLt, to_sequence, List.countP_append]
  have h0 : (to_sequence l).countP (fun z => decide (z < y)) = l.size :=
    countP_to_sequence_all hvl (mem_to_sequence hal)
  have h1 : (List.replicate (s - l.size - r.size) y).countP
      (fun z => decide (z < y)) = 0 := by
    refine List.countP_eq_zero.mpr ?_
    intro a ha
    rw [List.eq_of_mem_replicate ha]
    simp
  have h2 : (to_sequence r).countP (fun z => decide (z < y)) = 0 := by
    refine List.countP_eq_zero.mpr ?_
    intro a ha
    have : y < a := by simpa using mem_to_sequence har a ha
    simpa using not_lt.mpr (le_of_lt this)
  rw [h0, h1, h2]
  simp

theorem countLt_node_gt {s : Nat} {y : α} {l r : MSTree α}
    (hm : validB (MSTree.node s y l r) = true) {x : α} (hyx : y < x) :
    countLt (MSTree.node s y l r) x = (s - r.size) + countLt r x := by
  have hm2 := hm
  simp only [validB, Bool.and_eq_true, decide_eq_true_iff] at hm2
  obtain ⟨⟨⟨⟨⟨hsz, hpos⟩, hal⟩, har⟩, hvl⟩, hvr⟩ := hm2
  simp only [countLt, to_sequence, List.countP_append]
  have h0 : (to_sequence l).countP (fun z => decide (z < x)) = l.size := by
    refine countP_to_sequence_all hvl ?_
    intro z hz
    have : z < y := by simpa using mem_to_sequence hal z hz
    simpa using lt_trans this hyx
  have h1 : (List.replicate (s - l.size - r.size) y).countP
      (fun z => decide (z < x)) = s - l.size - r.size := by
    rw [List.countP_eq_length.mpr, List.length_replicate]
    intro a ha
    rw [List.eq_of_mem_replicate ha]
    simpa using hyx
  rw [h0, h1]
  omega

theorem count_node_lt {s : Nat} {y : α} {l r : MSTree α}
    (hm : validB (MSTree.node s y l r) = true) {x : α} (hxy : x < y) :
    count (MSTree.node s y l r) x = count l x := by
  simp only [validB, Bool.and_eq_true, decide_eq_true_iff] at hm
  obtain ⟨⟨⟨⟨⟨hsz, hpos⟩, hal⟩, har⟩, hvl⟩, hvr⟩ := hm
  simp only [count, to_sequence, List.count_append]
  have h1 : (List.replicate (s - l.size - r.size) y).count x = 0 := by
    refine List.count_eq_zero.mpr ?_
    intro hmem
    exact absurd (List.eq_of_mem_replicate hmem) (ne_of_lt hxy)
  have h2 : (to_sequence r).count x = 0 := by
    refine List.count_eq_zero.mpr ?_
    intro hmem
    have : y < x := by simpa using mem_to_sequence har x hmem
    exact absurd rfl (ne_of_gt (lt_trans hxy this))
  rw [h1, h2]
  simp [count]

theorem count_node_self {s : Nat} {y : α} {l r : MSTree α}
    (hm : validB (MSTree.node s y l r) = true) :
    count (MSTree.node s y l r) y = s - l.size - r.size := by
  simp only [validB, Bool.and_eq_true, decide_eq_true_iff] at hm
  obtain ⟨⟨⟨⟨⟨hsz, hpos⟩, hal⟩, har⟩, hvl⟩, hvr⟩ := hm
  simp only [count, to_sequence, List.count_append]
  have h0 : (to_sequence l).count y = 0 := by
    refine List.count_eq_zero.mpr ?_
    intro hmem
    have : y < y := by simpa using mem_to_sequence hal y hmem
    exact absurd this (lt_irrefl y)
  have h2 : (to_sequence r).count y = 0 := by
    refine List.count_eq_zero.mpr ?_
    intro hmem
    have : y < y := by simpa using mem_to_sequence har y hmem
    exact absurd this (lt_irrefl y)
  rw [h0, h2, List.count_replicate_self]
  simp

theorem count_node_gt {s : Nat} {y : α} {l r : MSTree α}
    (hm : validB (MSTree.node s y l r) = true) {x : α} (hyx : y < x) :
    count (MSTree.node s y l r) x = count r x := by
  simp only [validB, Bool.and_eq_true, decide_eq_true_iff] at hm
  obtain ⟨⟨⟨⟨⟨hsz, hpos⟩, hal⟩, har⟩, hvl⟩, hvr⟩ := hm
  simp only [count, to_sequence, List.count_append]
  have h0 : (to_sequence l).count x = 0 := by
    refine List.count_eq_zero.mpr ?_
    intro hmem
    have : x < y := by simpa using mem_to_sequence hal x hmem
    exact absurd rfl (ne_of_gt (lt_trans this hyx))
  have h1 : (List.replicate (s - l.size - r.size) y).count x = 0 := by
    refine List.count_eq_zero.mpr ?_
    intro hmem
    exact absurd (List.eq_of_mem_replicate hmem) (ne_of_gt hyx)
  rw [h0, h1]
  simp [count]

/-! The lookup functions compute the multiset-semantic slice
`(countLt, count)` on valid trees. -/

theorem forward_lookup_spec {m : MSTree α} (hm : validB m = true) (x : α) :
    forward_lookup m x =
      if hasPivot m x = true then some (countLt m x, count m x) else none := by
  induction m with
  | empty => simp [forward_lookup, hasPivot]
  | node s y l r ihl ihr =>
    have hm2 := hm
    simp only [validB, Bool.and_eq_true, decide_eq_true_iff] at hm2
    obtain ⟨⟨⟨⟨⟨hsz, hpos⟩, hal⟩, har⟩, hvl⟩, hvr⟩ := hm2
    rcases lt_trichotomy x y with hxy | hxy | hxy
    · have hnr : hasPivot r x = false := by
        by_contra hc
        have hpx : hasPivot r x = true := by
          cases hcc : hasPivot r x
          · exact absurd hcc hc
          · rfl
        have := hasPivot_allNodes har hpx
        exact absurd (by simpa using this) (not_lt.mpr (le_of_lt hxy))
      have hpiv : hasPivot (MSTree.node s y l r) x = hasPivot l x := by
        simp [hasPivot, hnr, ne_of_lt hxy]
      have hfwd : forward_lookup (MSTree.node s y l r) x = forward_lookup l x := by
        simp [forward_lookup, hxy, not_lt.mpr (le_of_lt hxy), lt_asymm hxy]
      rw [hfwd, hpiv, ihl hvl]
      by_cases hp : hasPivot l x = true
      · rw [if_pos hp, if_pos hp, countLt_node_lt hm hxy, count_node_lt hm hxy]
      · rw [if_neg hp, if_neg hp]
    · rw [hxy]
      have hfwd : forward_lookup (MSTree.node s y l r) y =
          some (l.size, s - l.size - r.size) := by
        simp [forward_lookup]
      have hpiv : hasPivot (MSTree.node s y l r) y = true := by
        simp [hasPivot]
      rw [hfwd, hpiv, if_pos rfl, countLt_node_self hm, count_node_self hm]
    · have hnl : hasPivot l x = false := by
        by_contra hc
        have hpx : hasPivot l x = true := by
          cases hcc : hasPivot l x
          · exact absurd hcc hc
          · rfl
        have := hasPivot_allNodes hal hpx
        exact absurd (by simpa using this) (not_lt.mpr (le_of_lt hxy))
      have hpiv : hasPivot (MSTree.node s y l r) x = hasPivot r x := by
        simp [hasPivot, hnl, ne_of_gt hxy]
      have hfwd : forward_lookup (MSTree.node s y l r) x =
          (forward_lookup r x).map (fun p => (s - r.size + p.1, p.2)) := by
        simp [forward_lookup, hxy]
      rw [hfwd, hpiv, ihr hvr]
      by_cases hp : hasPivot r x = true
      · rw [if_pos hp, if_pos hp, countLt_node_gt hm hxy, count_node_gt hm hxy]
        rfl
      · rw [if_neg hp, if_neg hp]
        rfl

theorem reverse_lookup_spec {m : MSTree α} (hm : validB m = true) {idx : Nat}
    (hidx : idx < m.size) :
    ∃ x, hasPivot m x = true ∧
      reverse_lookup m idx = some ((countLt m x, count m x), x) ∧
      countLt m x ≤ idx ∧ idx < countLt m x + count m x := by
  induction m generalizing idx with
  | empty => simp at hidx
  | node s y l r ihl ihr =>
    have hm2 := hm
    simp only [validB, Bool.and_eq_true, decide_eq_true_iff] at hm2
    obtain ⟨⟨⟨⟨⟨hsz, hpos⟩, hal⟩, har⟩, hvl⟩, hvr⟩ := hm2
    rw [size_node] at hidx
    by_cases hL : idx < l.size
    · have hrev : reverse_lookup (MSTree.node s y l r) idx = reverse_lookup l idx := by
        simp only [reverse_lookup]
        rw [if_neg (not_le.mpr hidx), if_pos hL]
      obtain ⟨x, hx, hxr, hb1, hb2⟩ := ihl hvl hL
      have hxy : x < y := by simpa using hasPivot_allNodes hal hx
      refine ⟨x, ?_, ?_, ?_, ?_⟩
      · simp [hasPivot, hx]
      · rw [hrev, hxr, countLt_node_lt hm hxy, count_node_lt hm hxy]
      · rw [countLt_node_lt hm hxy]; exact hb1
      · rw [countLt_node_lt hm hxy, count_node_lt hm hxy]; exact hb2
    · by_cases hR : l.size + (s - l.size - r.size) ≤ idx
      · have hi2 : idx - (s - r.size) < r.size := by omega
        have hrev : reverse_lookup (MSTree.node s y l r) idx =
            (reverse_lookup r (idx - (s - r.size))).map
              (fun q => ((q.1.1 + (s - r.size), q.1.2), q.2)) := by
          simp only [reverse_lookup]
          rw [if_neg (not_le.mpr hidx), if_neg hL, if_pos hR]
        obtain ⟨x, hx, hxr, hb1, hb2⟩ := ihr hvr hi2
        have hyx : y < x := by simpa using hasPivot_allNodes har hx
        refine ⟨x, ?_, ?_, ?_, ?_⟩
        · simp [hasPivot, hx]
        · rw [hrev, hxr, countLt_node_gt hm hyx, count_node_gt hm hyx]
          simp [Option.map_some]
          omega
        · rw [countLt_node_gt hm hyx]; omega
        · rw [countLt_node_gt hm hyx, count_node_gt hm hyx]; omega
      · have hrev : reverse_lookup (MSTree.node s y l r) idx =
            some ((l.size, s - l.size - r.size), y) := by
          simp only [reverse_lookup]
          rw [if_neg (not_le.mpr hidx), if_neg hL, if_neg hR]
        refine ⟨y, by simp [hasPivot], ?_, ?_, ?_⟩
        · rw [hrev, countLt_node_self hm, count_node_self hm]
        · rw [countLt_node_self hm]; omega
        · rw [countLt_node_self hm, count_node_self hm]; omega

/-! Counting after an insertion, and disjointness of symbol slices. -/

theorem count_insert_self {m : MSTree α} (hm : validB m = true) (x : α) :
    count (insert m x) x = count m x + 1 := by
  have h := (to_sequence_insert_perm hm x).count_eq x
  simpa [count] using h

theorem countLt_insert_self {m : MSTree α} (hm : validB m = true) (x : α) :
    countLt (insert m x) x = countLt m x := by
  have h := (to_sequence_insert_perm hm x).countP_eq (fun z => decide (z < x))
  simpa [countLt, List.countP_cons] using h

theorem list_countLt_add_count_le {x x2 : α} (hx : x < x2) (L : List α) :
    L.countP (fun z => decide (z < x)) + L.count x ≤
      L.countP (fun z => decide (z < x2)) := by
  induction L with
  | nil => simp
  | cons a t ih =>
    simp only [List.countP_cons, List.count_cons, beq_iff_eq, decide_eq_true_eq]
    have hax : a < x → a < x2 := fun h => lt_trans h hx
    have haeq : a = x → a < x2 := fun h => by rw [h]; exact hx
    split_ifs <;>
      first
        | omega
        | exact absurd (‹a = x› ▸ ‹a < x›) (lt_irrefl _)
        | exact absurd (hax ‹a < x›) ‹¬ a < x2›
        | exact absurd (haeq ‹a = x›) ‹¬ a < x2›

theorem countLt_add_count_le {m : MSTree α} {x x2 : α} (hx : x < x2) :
    countLt m x + count m x ≤ countLt m x2 :=
  list_countLt_add_count_le hx (to_sequence m)

theorem list_countLt_add_count_le_length (L : List α) (x : α) :
    L.countP (fun z => decide (z < x)) + L.count x ≤ L.length := by
  induction L with
  | nil => simp
  | cons a t ih =>
    simp only [List.countP_cons, List.count_cons, List.length_cons,
      beq_iff_eq, decide_eq_true_eq]
    split_ifs <;>
      first
        | omega
        | exact absurd (‹a = x› ▸ ‹a < x›) (lt_irrefl _)

/-- The slice of `x` fits inside the multiset: `start + freq ≤ size`. -/
theorem countLt_add_count_le_size {m : MSTree α} (hm : validB m = true)
    (x : α) : countLt m x + count m x ≤ m.size := by
  rw [← length_to_sequence hm]
  exact list_countLt_add_count_le_length (to_sequence m) x

/-- Erasing one occurrence of `x` does not change the number of elements
strictly below `x`. -/
theorem list_countLt_erase (L : List α) (x : α) :
    (L.erase x).countP (fun z => decide (z < x)) =
      L.countP (fun z => decide (z < x)) := by
  by_cases hx : x ∈ L
  · have h := (List.perm_cons_erase hx).countP_eq (fun z => decide (z < x))
    simp only [List.countP_cons, decide_eq_true_eq, lt_irrefl, if_false] at h
    omega
  · rw [List.erase_of_not_mem hx]

/-! The fused insert-then-forward-lookup is the composition of `insert` and
`forward_lookup` on the inserted tree; this holds for arbitrary trees. -/

theorem itfl_fst (m : MSTree α) (x : α) :
    (insert_then_forward_lookup m x).1 = insert m x := by
  induction m with
  | empty => rfl
  | node s y l r ihl ihr =>
    unfold insert_then_forward_lookup insert
    rcases lt_trichotomy x y with h1 | h1 | h1
    · simp [h1, lt_asymm h1, ihl]
    · subst h1
      simp [lt_irrefl]
    · simp [h1, lt_asymm h1, ihr]

theorem forward_lookup_itfl (m : MSTree α) (x : α) :
    forward_lookup (insert m x) x = some (insert_then_forward_lookup m x).2 := by
  induction m with
  | empty => simp [insert, forward_lookup, insert_then_forward_lookup, lt_irrefl]
  | node s y l r ihl ihr =>
    rcases lt_trichotomy x y with h1 | h1 | h1
    · have hins : insert (MSTree.node s y l r) x = .node (s + 1) y (insert l x) r := by
        simp [insert, h1]
      have hit : (insert_then_forward_lookup (MSTree.node s y l r) x).2 =
          (insert_then_forward_lookup l x).2 := by
        simp [insert_then_forward_lookup, h1, lt_asymm h1]
      rw [hins, hit]
      have : forward_lookup (MSTree.node (s + 1) y (insert l x) r) x =
          forward_lookup (insert l x) x := by
        simp [forward_lookup, h1, lt_asymm h1]
      rw [this, ihl]
    · subst h1
      have hins : insert (MSTree.node s x l r) x = .node (s + 1) x l r := by
        simp [insert, lt_irrefl]
      rw [hins]
      have : forward_lookup (MSTree.node (s + 1) x l r) x =
          some (l.size, (s + 1) - l.size - r.size) := by
        simp [forward_lookup, lt_irrefl]
      rw [this]
      simp [insert_then_forward_lookup, lt_irrefl]
    · have hins : insert (MSTree.node s y l r) x = .node (s + 1) y l (insert r x) := by
        simp [insert, h1, lt_asymm h1]
      rw [hins]
      have : forward_lookup (MSTree.node (s + 1) y l (insert r x)) x =
          (forward_lookup (insert r x) x).map
            (fun p => ((s + 1) - (insert r x).size + p.1, p.2)) := by
        simp [forward_lookup, h1]
      rw [this, ihr]
      simp [insert_then_forward_lookup, h1, lt_asymm h1, itfl_fst]

/-! `remove` undoes `insert`, and removing a present symbol erases exactly
one copy from the flattened sequence. -/

theorem remove_insert {m : MSTree α} (hm : validB m = true) (x : α) :
    remove (insert m x) x = some m := by
  induction m with
  | empty => rfl
  | node s y l r ihl ihr =>
    have hm2 := hm
    simp only [validB, Bool.and_eq_true, decide_eq_true_iff] at hm2
    obtain ⟨⟨⟨⟨⟨hsz, hpos⟩, hal⟩, har⟩, hvl⟩, hvr⟩ := hm2
    rcases lt_trichotomy x y with h1 | h1 | h1
    · have hins : insert (MSTree.node s y l r) x = .node (s + 1) y (insert l x) r := by
        simp [insert, h1]
      rw [hins]
      unfold remove
      rw [if_neg (by omega), if_pos h1, ihl hvl]
      simp
    · subst h1
      have hins : insert (MSTree.node s x l r) x = .node (s + 1) x l r := by
        simp [insert, lt_irrefl]
      rw [hins]
      unfold remove
      rw [if_neg (by omega), if_neg (lt_irrefl x), if_neg (lt_irrefl x)]
      simp
    · have hins : insert (MSTree.node s y l r) x = .node (s + 1) y l (insert r x) := by
        simp [insert, h1, lt_asymm h1]
      rw [hins]
      unfold remove
      rw [if_neg (by omega), if_neg (lt_asymm h1), if_pos h1, ihr hvr]
      simp

theorem allNodes_remove {p : α → Bool} {m m2 : MSTree α} {x : α}
    (hp : allNodes p m = true) (h : remove m x = some m2) :
    allNodes p m2 = true := by
  induction m generalizing m2 with
  | empty => simp [remove] at h
  | node s y l r ihl ihr =>
    simp only [allNodes, Bool.and_eq_true] at hp
    unfold remove at h
    by_cases h1 : s = 1
    · rw [if_pos h1] at h
      cases h
      rfl
    · rw [if_neg h1] at h
      by_cases h2 : x < y
      · rw [if_pos h2] at h
        cases hrl : remove l x with
        | none => rw [hrl] at h; cases h
        | some l2 =>
          rw [hrl] at h
          cases h
          simp only [allNodes, Bool.and_eq_true]
          exact ⟨⟨hp.1.1, ihl hp.1.2 hrl⟩, hp.2⟩
      · rw [if_neg h2] at h
        by_cases h3 : x > y
        · rw [if_pos h3] at h
          cases hrr : remove r x with
          | none => rw [hrr] at h; cases h
          | some r2 =>
            rw [hrr] at h
            cases h
            simp only [allNodes, Bool.and_eq_true]
            exact ⟨⟨hp.1.1, hp.1.2⟩, ihr hp.2 hrr⟩
        · rw [if_neg h3] at h
          cases h
          simp only [allNodes, Bool.and_eq_true]
          exact ⟨⟨hp.1.1, hp.1.2⟩, hp.2⟩

theorem mem_to_sequence_of_count {m : MSTree α} {x : α} (hc : 1 ≤ count m x) :
    x ∈ to_sequence m := by
  by_contra hnm
  simp only [count] at hc
  rw [List.count_eq_zero.mpr hnm] at hc
  omega

theorem remove_spec {m : MSTree α} (hm : validB m = true) {x : α}
    (hc : 1 ≤ count m x) :
    ∃ m2, remove m x = some m2 ∧ validB m2 = true ∧
      to_sequence m2 = (to_sequence m).erase x ∧ m2.size = m.size - 1 := by
  induction m with
  | empty => simp [count, to_sequence] at hc
  | node s y l r ihl ihr =>
    have hm2 := hm
    simp only [validB, Bool.and_eq_true, decide_eq_true_iff] at hm2
    obtain ⟨⟨⟨⟨⟨hsz, hpos⟩, hal⟩, har⟩, hvl⟩, hvr⟩ := hm2
    have hxmem : x ∈ to_sequence (MSTree.node s y l r) := mem_to_sequence_of_count hc
    by_cases h1 : s = 1
    · refine ⟨.empty, ?_, rfl, ?_, ?_⟩
      · unfold remove
        rw [if_pos h1]
      · have hlen : (to_sequence (MSTree.node s y l r)).length = 1 := by
          rw [length_to_sequence hm, size_node, h1]
        obtain ⟨a, ha⟩ := List.length_eq_one.mp hlen
        rw [ha] at hxmem ⊢
        have : a = x := by
          rcases List.mem_singleton.mp hxmem with h
          exact h.symm
        rw [this, List.erase_cons_head]
        rfl
      · simp [h1]
    · rcases lt_trichotomy x y with hxy | hxy | hxy
      · have hcl : 1 ≤ count l x := by
          rw [count_node_lt hm hxy] at hc
          exact hc
        obtain ⟨l2, hrl, hvl2, hseq, hsize⟩ := ihl hvl hcl
        have hlpos : 1 ≤ l.size := by
          rw [← length_to_sequence hvl]
          exact List.length_pos_of_mem (mem_to_sequence_of_count hcl)
        refine ⟨.node (s - 1) y l2 r, ?_, ?_, ?_, ?_⟩
        · unfold remove
          rw [if_neg h1, if_pos hxy, hrl]
          rfl
        · simp only [validB, Bool.and_eq_true, decide_eq_true_iff]
          exact ⟨⟨⟨⟨⟨by omega, by omega⟩, allNodes_remove hal hrl⟩, har⟩, hvl2⟩, hvr⟩
        · have hxl : x ∈ to_sequence l := mem_to_sequence_of_count hcl
          simp only [to_sequence, size_node]
          rw [hsize, hseq]
          have hfreq : s - 1 - (l.size - 1) - r.size = s - l.size - r.size := by omega
          rw [hfreq]
          rw [List.erase_append_left _ (List.mem_append_left _ hxl),
            List.erase_append_left _ hxl]
        · simp only [size_node]
      · have hf : 1 ≤ s - l.size - r.size := by
          rw [hxy, count_node_self hm] at hc
          exact hc
        refine ⟨.node (s - 1) y l r, ?_, ?_, ?_, ?_⟩
        · unfold remove
          rw [if_neg h1, if_neg (by rw [hxy]; exact lt_irrefl y),
            if_neg (by rw [hxy]; exact lt_irrefl y)]
        · simp only [validB, Bool.and_eq_true, decide_eq_true_iff]
          exact ⟨⟨⟨⟨⟨by omega, by omega⟩, hal⟩, har⟩, hvl⟩, hvr⟩
        · have hxnl : x ∉ to_sequence l := by
            intro hmem
            have : x < y := by simpa using mem_to_sequence hal x hmem
            rw [hxy] at this
            exact absurd this (lt_irrefl y)
          simp only [to_sequence, size_node]
          have hfreq : s - 1 - l.size - r.size = (s - l.size - r.size) - 1 := by omega
          rw [hfreq, List.append_assoc, List.append_assoc,
            List.erase_append_right _ hxnl]
          congr 1
          have hrep : List.replicate (s - l.size - r.size) y =
              y :: List.replicate (s - l.size - r.size - 1) y := by
            conv_lhs => rw [show s - l.size - r.size = (s - l.size - r.size - 1) + 1
              by omega]
            rw [List.replicate_succ]
          rw [hrep, List.cons_append, hxy, List.erase_cons_head]
        · simp only [size_node]
      · have hcr : 1 ≤ count r x := by
          rw [count_node_gt hm hxy] at hc
          exact hc
        obtain ⟨r2, hrr, hvr2, hseq, hsize⟩ := ihr hvr hcr
        have hrpos : 1 ≤ r.size := by
          rw [← length_to_sequence hvr]
          exact List.length_pos_of_mem (mem_to_sequence_of_count hcr)
        refine ⟨.node (s - 1) y l r2, ?_, ?_, ?_, ?_⟩
        · unfold remove
          rw [if_neg h1, if_neg (lt_asymm hxy), if_pos hxy, hrr]
          rfl
        · simp only [validB, Bool.and_eq_true, decide_eq_true_iff]
          exact ⟨⟨⟨⟨⟨by omega, by omega⟩, hal⟩, allNodes_remove har hrr⟩, hvl⟩, hvr2⟩
        · have hxnl : x ∉ to_sequence l := by
            intro hmem
            have : x < y := by simpa using mem_to_sequence hal x hmem
            exact absurd (lt_trans this hxy) (lt_irrefl x)
          have hxnr : x ∉ List.replicate (s - l.size - r.size) y := by
            intro hmem
            exact absurd (List.eq_of_mem_replicate hmem) (ne_of_gt hxy)
          simp only [to_sequence, size_node]
          rw [hsize, hseq]
          have hfreq : s - 1 - l.size - (r.size - 1) = s - l.size - r.size := by omega
          rw [hfreq, List.append_assoc, List.append_assoc,
            List.erase_append_right _ hxnl, List.erase_append_right _ hxnr]
        · simp only [size_node]

/-- The fused `reverse_lookup_then_remove` agrees with `reverse_lookup`
followed by `remove` of the symbol found, on valid trees at valid indices. -/
theorem rltr_spec {m : MSTree α} (hm : validB m = true) {idx : Nat}
    (hidx : idx < m.size) :
    ∃ m2 sl x, hasPivot m x = true ∧
      reverse_lookup_then_remove m idx = some (m2, sl, x) ∧
      reverse_lookup m idx = some (sl, x) ∧
      remove m x = some m2 := by
  induction m generalizing idx with
  | empty => simp at hidx
  | node s y l r ihl ihr =>
    have hm2 := hm
    simp only [validB, Bool.and_eq_true, decide_eq_true_iff] at hm2
    obtain ⟨⟨⟨⟨⟨hsz, hpos⟩, hal⟩, har⟩, hvl⟩, hvr⟩ := hm2
    rw [size_node] at hidx
    by_cases hL : idx < l.size
    · obtain ⟨l2, sl, x, hxp, hrlt, hrev, hrem⟩ := ihl hvl hL
      have hxy : x < y := by simpa using hasPivot_allNodes hal hxp
      refine ⟨mkNode (s - 1) y l2 r, sl, x, ?_, ?_, ?_, ?_⟩
      · simp [hasPivot, hxp]
      · simp only [reverse_lookup_then_remove]
        rw [if_pos hL, hrlt]
        rfl
      · simp only [reverse_lookup]
        rw [if_neg (not_le.mpr hidx), if_pos hL, hrev]
      · by_cases h1 : s = 1
        · unfold remove
          rw [if_pos h1]
          have hcl : 1 ≤ count l x := by
            obtain ⟨x2, hx2, hrev2, hb1, hb2⟩ := reverse_lookup_spec hvl hL
            rw [hrev] at hrev2
            cases hrev2
            omega
          obtain ⟨l2c, hrmc, hv2, _, hs2⟩ := remove_spec hvl hcl
          rw [hrem] at hrmc
          cases hrmc
          have hl2 : l2 = .empty :=
            eq_empty_of_size_eq_zero hv2 (by omega)
          rw [h1]
          simp [mkNode]
        · unfold remove
          rw [if_neg h1, if_pos hxy, hrem]
          have : mkNode (s - 1) y l2 r = .node (s - 1) y l2 r := by
            unfold mkNode
            rw [if_neg (by omega)]
          rw [this]
          rfl
    · by_cases hR : l.size + (s - l.size - r.size) ≤ idx
      · have hi2 : idx - (s - r.size) < r.size := by omega
        obtain ⟨r2, sl, x, hxp, hrlt, hrev, hrem⟩ := ihr hvr hi2
        have hyx : y < x := by simpa using hasPivot_allNodes har hxp
        refine ⟨mkNode (s - 1) y l r2, (sl.1 + (s - r.size), sl.2), x, ?_, ?_, ?_, ?_⟩
        · simp [hasPivot, hxp]
        · simp only [reverse_lookup_then_remove]
          rw [if_neg hL, if_pos hR, hrlt]
          rfl
        · simp only [reverse_lookup]
          rw [if_neg (not_le.mpr hidx), if_neg hL, if_pos hR, hrev]
          rfl
        · by_cases h1 : s = 1
          · unfold remove
            rw [if_pos h1]
            have hcr : 1 ≤ count r x := by
              obtain ⟨x2, hx2, hrev2, hb1, hb2⟩ := reverse_lookup_spec hvr hi2
              rw [hrev] at hrev2
              cases hrev2
              omega
            obtain ⟨r2c, hrmc, hv2, _, hs2⟩ := remove_spec hvr hcr
            rw [hrem] at hrmc
            cases hrmc
            have hr2 : r2 = .empty := eq_empty_of_size_eq_zero hv2 (by omega)
            rw [h1]
            simp [mkNode]
          · unfold remove
            rw [if_neg h1, if_neg (lt_asymm hyx), if_pos hyx, hrem]
            have : mkNode (s - 1) y l r2 = .node (s - 1) y l r2 := by
              unfold mkNode
              rw [if_neg (by omega)]
            rw [this]
            rfl
      · refine ⟨mkNode (s - 1) y l r, (l.size, s - l.size - r.size), y, ?_, ?_, ?_, ?_⟩
        · simp [hasPivot]
        · simp only [reverse_lookup_then_remove]
          rw [if_neg hL, if_neg hR]
        · simp only [reverse_lookup]
          rw [if_neg (not_le.mpr hidx), if_neg hL, if_neg hR]
        · by_cases h1 : s = 1
          · unfold remove
            rw [if_pos h1, h1]
            simp [mkNode]
          · unfold remove
            rw [if_neg h1, if_neg (lt_irrefl y), if_neg (lt_irrefl y)]
            have : mkNode (s - 1) y l r = .node (s - 1) y l r := by
              unfold mkNode
              rw [if_neg (by omega)]
            rw [this]

/-! Building a multiset by folding `insert`. -/

theorem validB_foldl (xs : List α) {m : MSTree α} (hm : validB m = true) :
    validB (xs.foldl insert m) = true := by
  induction xs generalizing m with
  | nil => exact hm
  | cons a t ih => exact ih (validB_insert hm a)

theorem validB_build (xs : List α) : validB (build_multiset xs) = true :=
  validB_foldl xs rfl

theorem to_sequence_foldl_perm (xs : List α) {m : MSTree α}
    (hm : validB m = true) :
    List.Perm (to_sequence (xs.foldl insert m)) (xs ++ to_sequence m) := by
  induction xs generalizing m with
  | nil => simp
  | cons a t ih =>
    refine (ih (validB_insert hm a)).trans ?_
    refine (List.Perm.append_left t (to_sequence_insert_perm hm a)).trans ?_
    exact List.perm_middle

theorem to_sequence_build_perm (xs : List α) :
    List.Perm (to_sequence (build_multiset xs)) xs := by
  have h := to_sequence_foldl_perm xs
    (show validB (.empty : MSTree α) = true from rfl)
  simpa [build_multiset, to_sequence] using h

/-- One-stop consequences of `reverse_lookup_then_remove` on a valid tree at
a valid index: the slice is the semantic slice of the returned symbol, the
index lies inside it, and the returned tree is the valid removal result. -/
theorem rltr_full {m : MSTree α} (hm : validB m = true) {idx : Nat}
    (hidx : idx < m.size) {m2 : MSTree α} {sl : Nat × Nat} {x : α}
    (h : reverse_lookup_then_remove m idx = some (m2, sl, x)) :
    sl = (countLt m x, count m x) ∧
      countLt m x ≤ idx ∧ idx < countLt m x + count m x ∧
      1 ≤ count m x ∧ validB m2 = true ∧
      to_sequence m2 = (to_sequence m).erase x ∧ m2.size = m.size - 1 := by
  obtain ⟨m2c, slc, xc, hxp, hrlc, hrevc, hremc⟩ := rltr_spec hm hidx
  rw [h] at hrlc
  simp only [Option.some.injEq, Prod.mk.injEq] at hrlc
  obtain ⟨h1, h2, h3⟩ := hrlc
  subst h1
  subst h2
  subst h3
  obtain ⟨x2, hx2, hrev2, hb1, hb2⟩ := reverse_lookup_spec hm hidx
  rw [hrevc] at hrev2
  simp only [Option.some.injEq, Prod.mk.injEq] at hrev2
  obtain ⟨hsl, hxx⟩ := hrev2
  subst hxx
  have hc : 1 ≤ count m x := by omega
  obtain ⟨m2c2, hrmc2, hv2, hseq2, hsz2⟩ := remove_spec hm hc
  rw [hremc] at hrmc2
  cases hrmc2
  exact ⟨hsl, hb1, hb2, hc, hv2, hseq2, hsz2⟩

/-- Every tree reachable by the codec operations satisfies the maintained
invariant `validB`. -/
theorem validB_of_reachable {m : MSTree α} (h : Reachable m) :
    validB m = true := by
  induction h with
  | empty => rfl
  | insert m x hr ih => exact validB_insert ih x
  | remove m x m2 hr hc hrm ih =>
    obtain ⟨m2c, hrmc, hv, _, _⟩ := remove_spec ih hc
    rw [hrm] at hrmc
    cases hrmc
    exact hv
  | itfl m x hr ih =>
    rw [itfl_fst]
    exact validB_insert ih x
  | rltr m idx m2 sl x hr hidx hrl ih =>
    exact (rltr_full ih hidx hrl).2.2.2.2.1

end MSTree

namespace Rans

theorem RANS_BASE_pos : 0 < RANS_BASE := by norm_num [RANS_BASE]

theorem RANS_L_eq_base : RANS_L = RANS_BASE := rfl

theorem RANS_H_eq : RANS_H = RANS_L * RANS_BASE := by
  norm_num [RANS_H, RANS_L, RANS_BASE]

theorem pullLoop_of_ge {h : Nat} (hh : RANS_L ≤ h) (tail : List Nat) :
    pullLoop h tail = (h, tail) := by
  cases tail with
  | nil => rfl
  | cons w rest => simp [pullLoop, not_lt.mpr hh]

theorem pushGo_irrel (fuel1 : Nat) : ∀ {h fuel2 maxH : Nat} (tail : List Nat),
    h ≤ fuel1 → h ≤ fuel2 →
    pushGo fuel1 maxH h tail = pushGo fuel2 maxH h tail := by
  induction fuel1 with
  | zero =>
    intro h fuel2 maxH tail h1 h2
    have hz : h = 0 := Nat.le_zero.mp h1
    subst hz
    cases fuel2 with
    | zero => rfl
    | succ f2 => simp [pushGo]
  | succ f1 ih =>
    intro h fuel2 maxH tail h1 h2
    cases fuel2 with
    | zero =>
      have hz : h = 0 := Nat.le_zero.mp h2
      subst hz
      simp [pushGo]
    | succ f2 =>
      simp only [pushGo]
      by_cases hg : maxH ≤ h ∧ 0 < h
      · rw [if_pos hg, if_pos hg]
        have hlt : h / RANS_BASE < h :=
          Nat.div_lt_self hg.2 (by norm_num [RANS_BASE])
        exact ih _ (by omega) (by omega)
      · rw [if_neg hg, if_neg hg]

theorem pushLoop_of_lt {maxH h : Nat} (hh : h < maxH) (tail : List Nat) :
    pushLoop maxH h tail = (h, tail) := by
  cases h with
  | zero => rfl
  | succ k =>
    rw [pushLoop]
    simp only [pushGo]
    rw [if_neg]
    intro hc
    exact absurd hh (not_lt.mpr hc.1)

theorem pushLoop_step {maxH h : Nat} (h1 : maxH ≤ h) (h2 : 0 < h)
    (tail : List Nat) :
    pushLoop maxH h tail =
      pushLoop maxH (h / RANS_BASE) (h % RANS_BASE :: tail) := by
  cases h with
  | zero => exact absurd h2 (lt_irrefl 0)
  | succ k =>
    rw [pushLoop, pushLoop]
    simp only [pushGo, Nat.succ_eq_add_one]
    rw [if_pos ⟨h1, h2⟩]
    have hlt : (k + 1) / RANS_BASE < k + 1 :=
      Nat.div_lt_self h2 (by norm_num [RANS_BASE])
    exact pushGo_irrel k _ (by omega) (by omega)

/-- Decode-and-pop exactly undoes a single-lane encode, from any at-rest
lane (`RANS_L ≤ h < RANS_H`) and any valid slice `start + freq ≤ prec` with
`prec ≤ RANS_L`; moreover the decoded CDF index lies in the slice. -/
theorem pop1_encode1 {h : Nat} (tail : List Nat) {s f t : Nat}
    (hL : RANS_L ≤ h) (hH : h < RANS_H) (hsf : s + f ≤ t) (hf : 1 ≤ f)
    (ht : t ≤ RANS_L) :
    pop1 (encode1 h tail s f t).1 (encode1 h tail s f t).2 s f t = (h, tail) ∧
      s ≤ (encode1 h tail s f t).1 % t ∧
      (encode1 h tail s f t).1 % t < s + f := by
  have htpos : 0 < t := by omega
  have hdiv1 : 1 ≤ RANS_L / t := (Nat.one_le_div_iff htpos).mpr ht
  have hMB : RANS_BASE ≤ RANS_L / t * RANS_BASE * f := by
    calc RANS_BASE = 1 * RANS_BASE * 1 := by ring
    _ ≤ RANS_L / t * RANS_BASE * f :=
        Nat.mul_le_mul (Nat.mul_le_mul hdiv1 (le_refl _)) hf
  by_cases hpush : RANS_L / t * RANS_BASE * f ≤ h
  · -- one renormalization word is pushed
    have hhpos : 0 < h := by
      have := RANS_BASE_pos
      omega
    have hh1lt : h / RANS_BASE < RANS_L := by
      rw [Nat.div_lt_iff_lt_mul RANS_BASE_pos]
      rw [RANS_H_eq] at hH
      exact hH
    have hstep : pushLoop (RANS_L / t * RANS_BASE * f) h tail =
        (h / RANS_BASE, h % RANS_BASE :: tail) := by
      rw [pushLoop_step hpush hhpos, pushLoop_of_lt]
      have : RANS_L ≤ RANS_L / t * RANS_BASE * f := le_trans (le_of_eq RANS_L_eq_base) hMB
      omega
    have henc : encode1 h tail s f t =
        ((h / RANS_BASE) / f * t + (h / RANS_BASE) % f + s,
          h % RANS_BASE :: tail) := by
      rw [encode1, hstep]
    set h1 := h / RANS_BASE with hh1
    have hmodlt : h1 % f + s < t := by
      have hmf : h1 % f < f := Nat.mod_lt h1 (by omega)
      omega
    have hval : h1 / f * t + h1 % f + s = h1 / f * t + (h1 % f + s) := by omega
    have hcf : (h1 / f * t + h1 % f + s) % t = h1 % f + s := by
      rw [hval, Nat.mul_comm (h1 / f) t, Nat.mul_add_mod, Nat.mod_eq_of_lt hmodlt]
    have hdivt : (h1 / f * t + h1 % f + s) / t = h1 / f := by
      rw [hval, Nat.mul_comm (h1 / f) t, Nat.mul_add_div htpos,
        Nat.div_eq_of_lt hmodlt, Nat.add_zero]
    refine ⟨?_, ?_, ?_⟩
    · rw [henc, pop1, hdivt, hcf]
      have harith : f * (h1 / f) + (h1 % f + s) - s = h1 := by
        have := Nat.div_add_mod h1 f
        omega
      rw [harith]
      have hpull : pullLoop h1 (h % RANS_BASE :: tail) = (h, tail) := by
        rw [pullLoop, if_pos hh1lt]
        have hrestore : RANS_BASE * h1 + h % RANS_BASE = h := Nat.div_add_mod h RANS_BASE
        rw [hrestore]
        exact pullLoop_of_ge hL tail
      exact hpull
    · rw [henc]
      simp only [hcf]
      omega
    · rw [henc]
      simp only [hcf]
      have hmf : h1 % f < f := Nat.mod_lt h1 (by omega)
      omega
  · -- no renormalization
    have hlt : h < RANS_L / t * RANS_BASE * f := not_le.mp hpush
    have henc : encode1 h tail s f t =
        (h / f * t + h % f + s, tail) := by
      rw [encode1, pushLoop_of_lt hlt]
    have hmodlt : h % f + s < t := by
      have hmf : h % f < f := Nat.mod_lt h (by omega)
      omega
    have hval : h / f * t + h % f + s = h / f * t + (h % f + s) := by omega
    have hcf : (h / f * t + h % f + s) % t = h % f + s := by
      rw [hval, Nat.mul_comm (h / f) t, Nat.mul_add_mod, Nat.mod_eq_of_lt hmodlt]
    have hdivt : (h / f * t + h % f + s) / t = h / f := by
      rw [hval, Nat.mul_comm (h / f) t, Nat.mul_add_div htpos,
        Nat.div_eq_of_lt hmodlt, Nat.add_zero]
    refine ⟨?_, ?_, ?_⟩
    · rw [henc, pop1, hdivt, hcf]
      have harith : f * (h / f) + (h % f + s) - s = h := by
        have := Nat.div_add_mod h f
        omega
      rw [harith]
      exact pullLoop_of_ge hL tail
    · rw [henc]
      simp only [hcf]
      omega
    · rw [henc]
      simp only [hcf]
      have hmf : h % f < f := Nat.mod_lt h (by omega)
      omega

/-- When the CDF total divides `RANS_L`, a single-lane encode keeps the lane
inside the at-rest interval `[RANS_L, RANS_H)`. -/
theorem encode1_range {h : Nat} (tail : List Nat) {s f t : Nat}
    (hL : RANS_L ≤ h) (hH : h < RANS_H) (hsf : s + f ≤ t) (hf : 1 ≤ f)
    (ht : t ≤ RANS_L) (hdvd : t ∣ RANS_L) :
    RANS_L ≤ (encode1 h tail s f t).1 ∧ (encode1 h tail s f t).1 < RANS_H := by
  have htpos : 0 < t := by omega
  have hdiv1 : 1 ≤ RANS_L / t := (Nat.one_le_div_iff htpos).mpr ht
  have hcancel : RANS_L / t * t = RANS_L := Nat.div_mul_cancel hdvd
  by_cases hpush : RANS_L / t * RANS_BASE * f ≤ h
  · have hhpos : 0 < h := by
      have := RANS_BASE_pos
      have hMB : RANS_BASE ≤ RANS_L / t * RANS_BASE * f := by
        calc RANS_BASE = 1 * RANS_BASE * 1 := by ring
        _ ≤ RANS_L / t * RANS_BASE * f :=
            Nat.mul_le_mul (Nat.mul_le_mul hdiv1 (le_refl _)) hf
      omega
    have hh1lt : h / RANS_BASE < RANS_L := by
      rw [Nat.div_lt_iff_lt_mul RANS_BASE_pos]
      rw [RANS_H_eq] at hH
      exact hH
    have hstep : pushLoop (RANS_L / t * RANS_BASE * f) h tail =
        (h / RANS_BASE, h % RANS_BASE :: tail) := by
      rw [pushLoop_step hpush hhpos, pushLoop_of_lt]
      have hMB : RANS_BASE ≤ RANS_L / t * RANS_BASE * f := by
        calc RANS_BASE = 1 * RANS_BASE * 1 := by ring
        _ ≤ RANS_L / t * RANS_BASE * f :=
            Nat.mul_le_mul (Nat.mul_le_mul hdiv1 (le_refl _)) hf
      have := RANS_L_eq_base
      omega
    rw [encode1, hstep]
    set h1 := h / RANS_BASE with hh1def
    have hlb : RANS_L / t * f ≤ h1 := by
      have e1 : RANS_L / t * RANS_BASE * f / RANS_BASE ≤ h1 :=
        Nat.div_le_div_right hpush
      have e2 : RANS_L / t * RANS_BASE * f / RANS_BASE = RANS_L / t * f := by
        rw [show RANS_L / t * RANS_BASE * f = RANS_L / t * f * RANS_BASE by ring]
        exact Nat.mul_div_cancel _ RANS_BASE_pos
      rw [e2] at e1
      exact e1
    constructor
    · have e1 : RANS_L / t * f / f ≤ h1 / f := Nat.div_le_div_right hlb
      have e2 : RANS_L / t * f / f = RANS_L / t := Nat.mul_div_cancel _ (by omega)
      rw [e2] at e1
      have e3 : RANS_L / t * t ≤ h1 / f * t := Nat.mul_le_mul_right t e1
      rw [hcancel] at e3
      show RANS_L ≤ h1 / f * t + h1 % f + s
      omega
    · have c1 : h1 / f + 1 ≤ RANS_L := by
        have := Nat.div_le_self h1 f
        omega
      have c2 : (h1 / f + 1) * t ≤ RANS_L * t := Nat.mul_le_mul_right t c1
      have c3 : RANS_L * t ≤ RANS_L * RANS_BASE := by
        refine Nat.mul_le_mul_left _ ?_
        rw [← RANS_L_eq_base]
        exact ht
      have c4 : (h1 / f + 1) * t = h1 / f * t + t := by ring
      have c5 : h1 % f < f := Nat.mod_lt _ (by omega)
      rw [RANS_H_eq]
      show h1 / f * t + h1 % f + s < RANS_L * RANS_BASE
      omega
  · have hlt : h < RANS_L / t * RANS_BASE * f := not_le.mp hpush
    rw [encode1, pushLoop_of_lt hlt]
    constructor
    · have e1 : RANS_L / t ≤ h / t := Nat.div_le_div_right hL
      have e2 : h / t ≤ h / f := Nat.div_le_div_left (by omega) (by omega)
      have e3 : RANS_L / t * t ≤ h / f * t :=
        Nat.mul_le_mul_right t (le_trans e1 e2)
      rw [hcancel] at e3
      show RANS_L ≤ h / f * t + h % f + s
      omega
    · have c1 : h / f + 1 ≤ RANS_L / t * RANS_BASE := by
        have : h / f < RANS_L / t * RANS_BASE := by
          rw [Nat.div_lt_iff_lt_mul (by omega : 0 < f)]
          exact hlt
        omega
      have c2 : (h / f + 1) * t ≤ RANS_L / t * RANS_BASE * t :=
        Nat.mul_le_mul_right t c1
      have c3 : RANS_L / t * RANS_BASE * t = RANS_L * RANS_BASE := by
        rw [show RANS_L / t * RANS_BASE * t = RANS_L / t * t * RANS_BASE by ring,
          hcancel]
      have c4 : (h / f + 1) * t = h / f * t + t := by ring
      have c5 : h % f < f := Nat.mod_lt _ (by omega)
      rw [RANS_H_eq]
      show h / f * t + h % f + s < RANS_L * RANS_BASE
      omega

/-- Encode exactly undoes decode-and-pop (the bits-back pairing), when the
lane lies in the renormalization-safe band
`[(RANS_L / prec) · prec, (RANS_L / prec) · prec · RANS_BASE)`, the slice
contains the CDF index `h % prec`, and the top tail word is a 32-bit
word. -/
theorem encode1_pop1 {h : Nat} (tail : List Nat) {s f t : Nat}
    (hb1 : RANS_L / t * t ≤ h) (hb2 : h < RANS_L / t * t * RANS_BASE)
    (hcf1 : s ≤ h % t) (hcf2 : h % t < s + f) (hsf : s + f ≤ t)
    (hw : tail.headD 0 < RANS_BASE) :
    encode1 (pop1 h tail s f t).1 (pop1 h tail s f t).2 s f t = (h, tail) := by
  have htpos : 0 < t := by
    rcases Nat.eq_zero_or_pos t with h0 | h0
    · rw [h0] at hb2
      simp at hb2
    · exact h0
  have hdiv1 : 1 ≤ RANS_L / t := by
    rcases Nat.eq_zero_or_pos (RANS_L / t) with h0 | h0
    · rw [h0] at hb2
      simp at hb2
    · exact h0
  have hf1 : 1 ≤ f := by omega
  have harg : f * (h / t) + h % t - s = f * (h / t) + (h % t - s) := by omega
  set r := h % t - s with hrdef
  have hrf : r < f := by omega
  have hdivf : (f * (h / t) + r) / f = h / t := by
    rw [Nat.mul_add_div (by omega), Nat.div_eq_of_lt hrf, Nat.add_zero]
  have hmodf : (f * (h / t) + r) % f = r := by
    rw [Nat.mul_add_mod, Nat.mod_eq_of_lt hrf]
  have hq : RANS_L / t ≤ h / t := (Nat.le_div_iff_mul_le htpos).mpr hb1
  have hqlt : h / t < RANS_L / t * RANS_BASE := by
    rw [Nat.div_lt_iff_lt_mul htpos]
    calc h < RANS_L / t * t * RANS_BASE := hb2
    _ = RANS_L / t * RANS_BASE * t := by ring
  have harith : (f * (h / t) + r) / f * t + (f * (h / t) + r) % f + s = h := by
    rw [hdivf, hmodf]
    have e := Nat.div_add_mod h t
    have e2 : h / t * t = t * (h / t) := Nat.mul_comm _ _
    omega
  have hlb : f * (RANS_L / t) ≤ f * (h / t) + r :=
    le_trans (Nat.mul_le_mul_left f hq) (Nat.le_add_right _ _)
  have hnopush : f * (h / t) + r < RANS_L / t * RANS_BASE * f := by
    have e1 : h / t + 1 ≤ RANS_L / t * RANS_BASE := hqlt
    have e2 : f * (h / t + 1) ≤ f * (RANS_L / t * RANS_BASE) :=
      Nat.mul_le_mul_left f e1
    have e3 : f * (RANS_L / t * RANS_BASE) = RANS_L / t * RANS_BASE * f := by
      ring
    rw [Nat.mul_add, Nat.mul_one] at e2
    omega
  rw [pop1, harg]
  set h1 := f * (h / t) + r with hh1def
  by_cases hL1 : RANS_L ≤ h1
  · rw [pullLoop_of_ge hL1, encode1, pushLoop_of_lt hnopush]
    show (h1 / f * t + h1 % f + s, tail) = (h, tail)
    rw [harith]
  · cases tail with
    | nil =>
      have : pullLoop h1 [] = (h1, []) := rfl
      rw [this, encode1, pushLoop_of_lt]
      · show (h1 / f * t + h1 % f + s, ([] : List Nat)) = (h, [])
        rw [harith]
      · have hMB : RANS_BASE ≤ RANS_L / t * RANS_BASE * f := by
          calc RANS_BASE = 1 * RANS_BASE * 1 := by ring
          _ ≤ RANS_L / t * RANS_BASE * f :=
              Nat.mul_le_mul (Nat.mul_le_mul hdiv1 (le_refl _)) hf1
        have := RANS_L_eq_base
        omega
    | cons w rest =>
      have hww : w < RANS_BASE := by simpa using hw
      have h1pos : 1 ≤ h1 := by
        have : 1 * 1 ≤ f * (RANS_L / t) := Nat.mul_le_mul hf1 hdiv1
        omega
      have hup : RANS_L ≤ RANS_BASE * h1 + w := by
        have : RANS_BASE * 1 ≤ RANS_BASE * h1 := Nat.mul_le_mul_left _ h1pos
        have := RANS_L_eq_base
        omega
      have hpull : pullLoop h1 (w :: rest) = (RANS_BASE * h1 + w, rest) := by
        rw [pullLoop, if_pos (not_le.mp hL1), pullLoop_of_ge hup]
      rw [hpull, encode1]
      have hMle : RANS_L / t * RANS_BASE * f ≤ RANS_BASE * h1 + w := by
        have e1 : RANS_BASE * (f * (RANS_L / t)) ≤ RANS_BASE * h1 :=
          Nat.mul_le_mul_left _ hlb
        have e2 : RANS_BASE * (f * (RANS_L / t)) =
            RANS_L / t * RANS_BASE * f := by ring
        omega
      have hstep : pushLoop (RANS_L / t * RANS_BASE * f) (RANS_BASE * h1 + w)
          rest = (h1, w :: rest) := by
        rw [pushLoop_step hMle (by omega)]
        have ed : (RANS_BASE * h1 + w) / RANS_BASE = h1 := by
          rw [Nat.mul_add_div RANS_BASE_pos, Nat.div_eq_of_lt hww, Nat.add_zero]
        have em : (RANS_BASE * h1 + w) % RANS_BASE = w := by
          rw [Nat.mul_add_mod, Nat.mod_eq_of_lt hww]
        rw [ed, em]
        refine pushLoop_of_lt ?_ _
        have hMB : RANS_BASE ≤ RANS_L / t * RANS_BASE * f := by
          calc RANS_BASE = 1 * RANS_BASE * 1 := by ring
          _ ≤ RANS_L / t * RANS_BASE * f :=
              Nat.mul_le_mul (Nat.mul_le_mul hdiv1 (le_refl _)) hf1
        have := RANS_L_eq_base
        omega
      rw [hstep]
      show (h1 / f * t + h1 % f + s, w :: rest) = (h, w :: rest)
      rw [harith]

/-- Decode-and-pop on every lane (right to left) undoes a vectorized encode
(left to right), for any at-rest lanes and valid scalar slice. -/
theorem popLanes_encodeLanes {heads : List Nat} (tail : List Nat) {s f t : Nat}
    (hH : ∀ h ∈ heads, RANS_L ≤ h ∧ h < RANS_H) (hsf : s + f ≤ t)
    (hf : 1 ≤ f) (ht : t ≤ RANS_L) :
    popLanes (encodeLanes heads tail s f t).1 (encodeLanes heads tail s f t).2
      s f t = (heads, tail) := by
  induction heads generalizing tail with
  | nil => rfl
  | cons h hs ih =>
    obtain ⟨hL, hHh⟩ := hH h (by simp)
    have hrest : ∀ x ∈ hs, RANS_L ≤ x ∧ x < RANS_H := fun x hx =>
      hH x (by simp [hx])
    have hpe := (pop1_encode1 tail hL hHh hsf hf ht).1
    have hihx := ih (encode1 h tail s f t).2 hrest
    simp only [encodeLanes, popLanes, hihx, hpe]

/-- Vectorized uniform decode undoes a vectorized encode of the single
symbol `x` broadcast to every lane: the state comes back and every lane
reads `x`. -/
theorem decodeLanesUniform_encodeLanes {heads : List Nat} (tail : List Nat)
    {x t : Nat} (hH : ∀ h ∈ heads, RANS_L ≤ h ∧ h < RANS_H)
    (hx : x + 1 ≤ t) (ht : t ≤ RANS_L) :
    decodeLanesUniform (encodeLanes heads tail x 1 t).1
      (encodeLanes heads tail x 1 t).2 t =
      ((heads, tail), List.replicate heads.length x) := by
  induction heads generalizing tail with
  | nil => rfl
  | cons h hs ih =>
    obtain ⟨hL, hHh⟩ := hH h (by simp)
    have hrest : ∀ y ∈ hs, RANS_L ≤ y ∧ y < RANS_H := fun y hy =>
      hH y (by simp [hy])
    obtain ⟨hpe, hcf1, hcf2⟩ := pop1_encode1 tail hL hHh hx (le_refl 1) ht
    have hcf : (encode1 h tail x 1 t).1 % t = x := by omega
    have hihx := ih (encode1 h tail x 1 t).2 hrest
    simp only [encodeLanes, decodeLanesUniform, hihx, hcf, hpe,
      List.length_cons, List.replicate_succ]

/-- Vectorized uniform decode undoes a vectorized per-lane encode (one
`start` per lane, `freq = 1`): the encode succeeds when the shapes agree,
and decoding recovers the state and the per-lane starts. -/
theorem decodeLanesUniform_encodeLanesVec {heads starts : List Nat}
    (tail : List Nat) {t : Nat}
    (hH : ∀ h ∈ heads, RANS_L ≤ h ∧ h < RANS_H)
    (hst : ∀ s2 ∈ starts, s2 + 1 ≤ t) (ht : t ≤ RANS_L)
    (hlen : heads.length = starts.length) :
    ∃ pr : List Nat × List Nat,
      encodeLanesVec heads tail starts 1 t = some pr ∧
        decodeLanesUniform pr.1 pr.2 t = ((heads, tail), starts) := by
  induction heads generalizing starts tail with
  | nil =>
    cases starts with
    | nil => exact ⟨([], tail), rfl, rfl⟩
    | cons s2 ss => simp at hlen
  | cons h hs ih =>
    cases starts with
    | nil => simp at hlen
    | cons s2 ss =>
      obtain ⟨hL, hHh⟩ := hH h (by simp)
      have hrest : ∀ y ∈ hs, RANS_L ≤ y ∧ y < RANS_H := fun y hy =>
        hH y (by simp [hy])
      have hs2 : s2 + 1 ≤ t := hst s2 (by simp)
      have hss : ∀ y ∈ ss, y + 1 ≤ t := fun y hy => hst y (by simp [hy])
      have hlen2 : hs.length = ss.length := by simpa using hlen
      obtain ⟨hpe, hcf1, hcf2⟩ := pop1_encode1 tail hL hHh hs2 (le_refl 1) ht
      have hcf : (encode1 h tail s2 1 t).1 % t = s2 := by omega
      obtain ⟨pr, hene, hdec⟩ :=
        ih (encode1 h tail s2 1 t).2 hrest hss hlen2
      refine ⟨((encode1 h tail s2 1 t).1 :: pr.1, pr.2), ?_, ?_⟩
      · simp only [encodeLanesVec, hene]
        rfl
      · simp only [decodeLanesUniform, hdec, hcf, hpe]

/-- For a dyadic total (`t ∣ RANS_L`) a vectorized encode keeps every lane
at rest in `[RANS_L, RANS_H)`. -/
theorem encodeLanes_range {heads : List Nat} (tail : List Nat) {s f t : Nat}
    (hH : ∀ h ∈ heads, RANS_L ≤ h ∧ h < RANS_H) (hsf : s + f ≤ t)
    (hf : 1 ≤ f) (ht : t ≤ RANS_L) (hdvd : t ∣ RANS_L) :
    ∀ h2 ∈ (encodeLanes heads tail s f t).1, RANS_L ≤ h2 ∧ h2 < RANS_H := by
  induction heads generalizing tail with
  | nil =>
    intro h2 hh2
    simp [encodeLanes] at hh2
  | cons h hs ih =>
    obtain ⟨hL, hHh⟩ := hH h (by simp)
    have hrest : ∀ y ∈ hs, RANS_L ≤ y ∧ y < RANS_H := fun y hy =>
      hH y (by simp [hy])
    intro h2 hh2
    simp only [encodeLanes, List.mem_cons] at hh2
    rcases hh2 with rfl | hmem
    · exact encode1_range tail hL hHh hsf hf ht hdvd
    · exact ih (encode1 h tail s f t).2 hrest h2 hmem

/-- For a dyadic total a per-lane vectorized encode keeps every lane at
rest in `[RANS_L, RANS_H)`. -/
theorem encodeLanesVec_range {heads starts : List Nat} (tail : List Nat)
    {f t : Nat} (hH : ∀ h ∈ heads, RANS_L ≤ h ∧ h < RANS_H)
    (hst : ∀ s2 ∈ starts, s2 + f ≤ t) (hf : 1 ≤ f) (ht : t ≤ RANS_L)
    (hdvd : t ∣ RANS_L) {pr : List Nat × List Nat}
    (hene : encodeLanesVec heads tail starts f t = some pr) :
    ∀ h2 ∈ pr.1, RANS_L ≤ h2 ∧ h2 < RANS_H := by
  induction heads generalizing starts tail pr with
  | nil =>
    cases starts with
    | nil =>
      simp only [encodeLanesVec, Option.some.injEq] at hene
      intro h2 hh2
      rw [← hene] at hh2
      simp at hh2
    | cons s2 ss => simp [encodeLanesVec] at hene
  | cons h hs ih =>
    cases starts with
    | nil => simp [encodeLanesVec] at hene
    | cons s2 ss =>
      obtain ⟨hL, hHh⟩ := hH h (by simp)
      have hrest : ∀ y ∈ hs, RANS_L ≤ y ∧ y < RANS_H := fun y hy =>
        hH y (by simp [hy])
      have hss2 : s2 + f ≤ t := hst s2 (by simp)
      have hss : ∀ y ∈ ss, y + f ≤ t := fun y hy => hst y (by simp [hy])
      rw [encodeLanesVec] at hene
      cases hrec : encodeLanesVec hs (encode1 h tail s2 f t).2 ss f t with
      | none =>
        rw [hrec] at hene
        simp at hene
      | some q =>
        rw [hrec] at hene
        have hene2 : ((encode1 h tail s2 f t).1 :: q.1, q.2) = pr := by
          simpa using hene
        intro h2 hh2
        rw [← hene2] at hh2
        simp only [List.mem_cons] at hh2
        rcases hh2 with rfl | hmem
        · exact encode1_range tail hL hHh hss2 hf ht hdvd
        · exact ih (encode1 h tail s2 f t).2 hrest hss hrec h2 hmem

/-- A per-lane vectorized encode preserves the number of lanes. -/
theorem encodeLanesVec_length {heads starts : List Nat} {tail : List Nat}
    {f t : Nat} {pr : List Nat × List Nat}
    (h : encodeLanesVec heads tail starts f t = some pr) :
    pr.1.length = heads.length := by
  induction heads generalizing starts tail pr with
  | nil =>
    cases starts with
    | nil =>
      simp only [encodeLanesVec, Option.some.injEq] at h
      rw [← h]
    | cons s ss => simp [encodeLanesVec] at h
  | cons h0 hs ih =>
    cases starts with
    | nil => simp [encodeLanesVec] at h
    | cons s ss =>
      rw [encodeLanesVec] at h
      cases hrec : encodeLanesVec hs (encode1 h0 tail s f t).2 ss f t with
      | none =>
        rw [hrec] at h
        simp at h
      | some q =>
        rw [hrec] at h
        have h2 : ((encode1 h0 tail s f t).1 :: q.1, q.2) = pr := by
          simpa using h
        rw [← h2]
        simp [ih hrec]

/-- Decoding a list of operations in reverse order undoes encoding them in
order, from any state with at-rest lanes, provided every operation has a
valid slice and a precision dividing `RANS_L`. -/
theorem decList_encList {st : AnsState} {ops : List (Nat × Nat × Nat)}
    (hH : ∀ h ∈ st.1, RANS_L ≤ h ∧ h < RANS_H)
    (hops : ∀ op ∈ ops,
      op.1 + op.2.1 ≤ op.2.2 ∧ 1 ≤ op.2.1 ∧ op.2.2 ∣ RANS_L) :
    decList (encList st ops) ops.reverse = st := by
  induction ops generalizing st with
  | nil => rfl
  | cons op rest ih =>
    obtain ⟨hsf, hf, hdvd⟩ := hops op (by simp)
    have hrest : ∀ o ∈ rest,
        o.1 + o.2.1 ≤ o.2.2 ∧ 1 ≤ o.2.1 ∧ o.2.2 ∣ RANS_L :=
      fun o ho => hops o (by simp [ho])
    have hLpos : 0 < RANS_L := by norm_num [RANS_L]
    have ht : op.2.2 ≤ RANS_L := Nat.le_of_dvd hLpos hdvd
    have hH2 : ∀ h ∈ (encode st op.1 op.2.1 op.2.2).1,
        RANS_L ≤ h ∧ h < RANS_H := by
      intro h hh
      exact encodeLanes_range st.2 hH hsf hf ht hdvd h hh
    have hihx := ih hH2 hrest
    rw [List.reverse_cons]
    have he : encList st (op :: rest) =
        encList (encode st op.1 op.2.1 op.2.2) rest := by
      simp [encList]
    rw [he]
    have hd : decList (encList (encode st op.1 op.2.1 op.2.2) rest)
          (rest.reverse ++ [op]) =
        decOp (decList (encList (encode st op.1 op.2.1 op.2.2) rest)
          rest.reverse) op := by
      simp [decList, List.foldl_append]
    rw [hd, hihx]
    exact popLanes_encodeLanes st.2 hH hsf hf ht

end Rans

namespace Codecs

open Rans MSTree

variable {α : Type} [LinearOrder α]

/-- One sampling-without-replacement step is exactly invertible: when the
sampling decode succeeds from a state whose first lane is in the
renormalization-safe band for the multiset size and whose tail head is a
32-bit word, re-encoding the sampled symbol against any valid tree holding
the same multiset restores the state exactly and inserts the symbol. -/
theorem swor_step {st st1 : AnsState} {m m1 : MSTree α} {x : α}
    (hm : validB m = true)
    (hdec : sworDecode st m = some (st1, x, m1))
    (hb1 : RANS_L / m.size * m.size ≤ st.1.headD 0)
    (hb2 : st.1.headD 0 < RANS_L / m.size * m.size * RANS_BASE)
    (hw : st.2.headD 0 < RANS_BASE) :
    validB m1 = true ∧ m1.size = m.size - 1 ∧ 1 ≤ count m x ∧
      to_sequence m1 = (to_sequence m).erase x ∧
      ∀ m2 : MSTree α, validB m2 = true →
        List.Perm (to_sequence m2) (to_sequence m1) →
        sworEncode st1 x m2 = some (st, insert m2 x) := by
  cases hst1 : st.1 with
  | nil =>
    simp only [sworDecode, hst1] at hdec
    exact Option.noConfusion hdec
  | cons h0 rest =>
    simp only [sworDecode, hst1] at hdec
    cases hrl : reverse_lookup_then_remove m (h0 % m.size) with
    | none =>
      rw [hrl] at hdec
      simp at hdec
    | some trip =>
      obtain ⟨m2c, sl, xc⟩ := trip
      rw [hrl] at hdec
      obtain ⟨hst1e, hxe, hme⟩ : st1 = ((pop1 h0 st.2 sl.1 sl.2 m.size).1 ::
            rest, (pop1 h0 st.2 sl.1 sl.2 m.size).2) ∧ x = xc ∧ m1 = m2c := by
        simpa using hdec.symm
      subst hst1e
      subst hxe
      subst hme
      have hmpos : 0 < m.size := by
        cases m with
        | empty => simp [reverse_lookup_then_remove] at hrl
        | node s y l r =>
          have hm2 := hm
          simp only [validB, Bool.and_eq_true, decide_eq_true_iff] at hm2
          have := hm2.1.1.1.1.2
          simp only [size_node]
          omega
      have hidx : h0 % m.size < m.size := Nat.mod_lt _ hmpos
      obtain ⟨hsl, hlow, hhigh, hcx, hv1, hseq1, hsz1⟩ := rltr_full hm hidx hrl
      refine ⟨hv1, hsz1, hcx, hseq1, ?_⟩
      intro m2 hv2 hperm
      have hcnt2 : count m2 x = count m x - 1 := by
        have h1 : count m2 x = count m1 x := by
          simp only [count]
          exact hperm.count_eq x
        rw [h1]
        simp only [count, hseq1]
        rw [List.count_erase_self]
      have hclt2 : countLt m2 x = countLt m x := by
        have h1 : countLt m2 x = countLt m1 x := by
          simp only [countLt]
          exact hperm.countP_eq _
        rw [h1]
        simp only [countLt, hseq1]
        exact list_countLt_erase _ x
      have hsz2 : m2.size = m.size - 1 := by
        have h1 : m2.size = m1.size := by
          rw [← length_to_sequence hv2, ← length_to_sequence hv1]
          exact hperm.length_eq
        omega
      have hfl := forward_lookup_itfl m2 x
      rw [forward_lookup_spec (validB_insert hv2 x) x,
        if_pos (hasPivot_insert_self m2 x)] at hfl
      have hq2 : (insert_then_forward_lookup m2 x).2 =
          (countLt m x, count m x) := by
        have h2 := Option.some.inj hfl
        rw [countLt_insert_self hv2, count_insert_self hv2] at h2
        rw [← h2, hclt2, hcnt2]
        have h3 : count m x - 1 + 1 = count m x := Nat.sub_add_cancel hcx
        rw [h3]
      have hqsize : (insert m2 x).size = m.size := by
        rw [size_insert, hsz2]
        omega
      have hb1' : RANS_L / m.size * m.size ≤ h0 := by
        rw [hst1] at hb1
        simpa using hb1
      have hb2' : h0 < RANS_L / m.size * m.size * RANS_BASE := by
        rw [hst1] at hb2
        simpa using hb2
      have hsf : countLt m x + count m x ≤ m.size :=
        countLt_add_count_le_size hm x
      rw [hsl]
      have hround := encode1_pop1 st.2 hb1' hb2' hlow hhigh hsf hw
      simp only [sworEncode, hq2, hqsize, itfl_fst]
      rw [hround]
      rw [← hst1]

/-- The bits-back loop is exactly invertible under the executable safety
condition: running the decode loop on the encoded state returns the
original state and a valid tree holding the same multiset. -/
theorem multiset_roundtrip_aux (C : SymCodec α) :
    ∀ (n : Nat) (st : AnsState) (m : MSTree α), validB m = true →
      m.size = n → multisetSafeAux C n st m = true →
      ∃ st2 m2, multisetEncodeAux C n st m = some st2 ∧
        multisetDecode C st2 n = some (st, m2) ∧ validB m2 = true ∧
        List.Perm (to_sequence m2) (to_sequence m) := by
  intro n
  induction n with
  | zero =>
    intro st m hv hsz hsafe
    simp only [multisetSafeAux, decide_eq_true_eq] at hsafe
    subst hsafe
    exact ⟨st, .empty, rfl, rfl, rfl, List.Perm.refl _⟩
  | succ k ih =>
    intro st m hv hsz hsafe
    have hne : m ≠ .empty := by
      intro he
      rw [he] at hsz
      simp at hsz
    simp only [multisetSafeAux, if_neg hne] at hsafe
    cases hst1 : st.1 with
    | nil =>
      rw [hst1] at hsafe
      simp at hsafe
    | cons h0 rest =>
      rw [hst1] at hsafe
      simp only [Bool.and_eq_true, decide_eq_true_eq] at hsafe
      obtain ⟨⟨⟨hb1, hb2⟩, hw⟩, hrest⟩ := hsafe
      cases hsd : sworDecode st m with
      | none =>
        rw [hsd] at hrest
        simp at hrest
      | some trip =>
        obtain ⟨st1, x, m1⟩ := trip
        rw [hsd] at hrest
        have hrest2 : (match C.enc st1 x with
            | none => false
            | some st2 => decide (C.dec st2 = some (st1, x)) &&
                multisetSafeAux C k st2 m1) = true := hrest
        cases hce : C.enc st1 x with
        | none =>
          rw [hce] at hrest2
          exact Bool.noConfusion hrest2
        | some st2 =>
          rw [hce] at hrest2
          have hrest3 : (decide (C.dec st2 = some (st1, x)) &&
              multisetSafeAux C k st2 m1) = true := hrest2
          simp only [Bool.and_eq_true, decide_eq_true_eq] at hrest3
          obtain ⟨hcd, hsafe2⟩ := hrest3
          have hb1h : RANS_L / m.size * m.size ≤ st.1.headD 0 := by
            rw [hst1]
            simpa using hb1
          have hb2h : st.1.headD 0 < RANS_L / m.size * m.size * RANS_BASE := by
            rw [hst1]
            simpa using hb2
          obtain ⟨hv1, hsz1, hcx, hseq1, henc⟩ :=
            swor_step hv hsd hb1h hb2h hw
          obtain ⟨st3, m3, he, hd, hv3, hperm3⟩ :=
            ih st2 m1 hv1 (by omega) hsafe2
          refine ⟨st3, insert m3 x, ?_, ?_, validB_insert hv3 x, ?_⟩
          · simp only [multisetEncodeAux, if_neg hne, hsd, hce]
            exact he
          · simp only [multisetDecode, hd, hcd]
            exact henc m3 hv3 hperm3
          · refine (to_sequence_insert_perm hv3 x).trans ?_
            refine (hperm3.cons x).trans ?_
            rw [hseq1]
            exact (List.perm_cons_erase (mem_to_sequence_of_count hcx)).symm

end Codecs

section ClaimTheorems

open Rans Codecs

/-- C1 (amended): multiset preservation.  For every symbol codec `C`,
every valid multiset tree `m` and every ANS state `st` satisfying the
executable safety condition `multisetSafe C st m` — at each sampling step
the first lane lies in the renormalization-safe band for the current
multiset size, the tail head is a 32-bit word, and `C` round-trips the
sampled symbol — `Multiset(C).encode` succeeds and `Multiset(C).decode`
of the result, given `multiset_size = m.size`, returns the original ANS
state exactly and a tree holding the same multiset (same symbols with the
same multiplicities; order and tree shape ignored).  The original claim,
with no condition beyond symbol validity, is refuted by
`multiset_roundtrip_counterexample`: from an extreme lane value the
encode's sampling step leaves the invertibility band and the decoded
state differs. -/
theorem multiset_roundtrip {α : Type} [LinearOrder α] {C : SymCodec α}
    {st : AnsState} {m : MSTree α} (hv : MSTree.validB m = true)
    (hsafe : multisetSafe C st m = true) :
    ∃ st2 m2, multisetEncode C st m = some st2 ∧
      multisetDecode C st2 m.size = some (st, m2) ∧
      List.Perm (MSTree.to_sequence m2) (MSTree.to_sequence m) := by
  obtain ⟨st2, m2, he, hd, _, hp⟩ :=
    multiset_roundtrip_aux C m.size st m hv rfl hsafe
  exact ⟨st2, m2, he, hd, hp⟩

/-- C1 counterexample: with the symbol codec `Uniform(4)` and the multiset
`{0, 1, 2}` — all symbols valid for the codec — encoding from the state
`([2^64 - 1], [])` succeeds, yet decoding the result with
`multiset_size = 3` does not return the original state: without the
safety condition the round-trip is not the identity on the ANS state. -/
theorem multiset_roundtrip_counterexample :
    (∀ y ∈ MSTree.to_sequence (MSTree.build_multiset [0, 1, 2]), y < 4) ∧
    (multisetEncode (uniCodec 4) ([2 ^ 64 - 1], [])
        (MSTree.build_multiset [0, 1, 2])).isSome = true ∧
    ((multisetEncode (uniCodec 4) ([2 ^ 64 - 1], [])
        (MSTree.build_multiset [0, 1, 2])).bind
      (fun st2 => multisetDecode (uniCodec 4) st2
        (MSTree.build_multiset [0, 1, 2]).size)).map Prod.fst ≠
      some ((([2 ^ 64 - 1], []) : AnsState)) := by
  decide

/-- C1 witness: the amended round-trip theorem applied to `Uniform(4)`,
the multiset `{0, 1, 2}` and the base state `([2^32], [])`, whose safety
condition holds by computation. -/
theorem multiset_roundtrip_witness :
    ∃ st2 m2,
      multisetEncode (uniCodec 4) ([2 ^ 32], [])
        (MSTree.build_multiset [0, 1, 2]) = some st2 ∧
      multisetDecode (uniCodec 4) st2
          (MSTree.build_multiset [0, 1, 2]).size =
        some ((([2 ^ 32], []) : AnsState), m2) ∧
      List.Perm (MSTree.to_sequence m2)
        (MSTree.to_sequence (MSTree.build_multiset [0, 1, 2])) :=
  multiset_roundtrip (by decide) (by decide)

/-- C8 (amended): the `Uniform(prec)` codec.  `Uniform(prec).encode` is
definitionally `rans.encode(state, x, 1, prec)`, and for every symbol
`x < prec` (the precision is the CDF total itself, not `2^prec`),
`Uniform(prec).decode` after `Uniform(prec).encode` returns the original
state — lanes at rest, `prec ≤ RANS_L` — and reads the symbol `x` on
every lane.  The original claim places the precondition boundary at
`x ≥ 2^prec`; `uniform_roundtrip_counterexample` refutes that: `x = 3`
with `prec = 3` satisfies `x < 2^prec` yet fails to round-trip, because
the valid range is `x < prec`. -/
theorem uniform_roundtrip {prec x : Nat} {st : AnsState}
    (hH : ∀ h ∈ st.1, RANS_L ≤ h ∧ h < RANS_H) (hx : x < prec)
    (hp : prec ≤ RANS_L) :
    uniformEncode prec st x = Rans.encode st x 1 prec ∧
      uniformDecode prec (uniformEncode prec st x) =
        (st, List.replicate st.1.length x) := by
  refine ⟨rfl, ?_⟩
  have hxt : x + 1 ≤ prec := by omega
  have hde := decodeLanesUniform_encodeLanes st.2 hH hxt hp
  simp only [uniformDecode, uniformEncode, Rans.encode, hde]

/-- C8 counterexample: `x = 3` is below `2^3 = 8`, and
`Uniform(3).encode` is still `rans.encode(state, 3, 1, 3)`, yet decoding
after encoding from the base single-lane state returns the symbol `0` and
a different state: the precondition boundary is `prec`, not `2^prec`. -/
theorem uniform_roundtrip_counterexample :
    (3 : Nat) < 2 ^ 3 ∧
    uniformEncode 3 ([2 ^ 32], []) 3 = Rans.encode ([2 ^ 32], []) 3 1 3 ∧
    uniformDecode 3 (uniformEncode 3 ([2 ^ 32], []) 3) ≠
      ((([2 ^ 32], []) : AnsState), [3]) := by
  decide

/-- C8 witness: the amended theorem at `prec = 3`, `x = 2`, from the base
single-lane state. -/
theorem uniform_roundtrip_witness :
    uniformEncode 3 (([2 ^ 32], []) : AnsState) 2 =
        Rans.encode ([2 ^ 32], []) 2 1 3 ∧
      uniformDecode 3 (uniformEncode 3 ([2 ^ 32], []) 2) =
        ((([2 ^ 32], []) : AnsState),
          List.replicate (([2 ^ 32], []) : AnsState).1.length 2) :=
  uniform_roundtrip (by decide) (by decide) (by decide)

/-- C2 (amended): rANS invertibility.  For every head size `n` and every
list of `(start, freq, precision)` operations with valid slices
(`start + freq ≤ precision`, `freq ≥ 1`) whose precisions divide `RANS_L`
— as the dyadic precisions used by the codecs do — encoding them all onto
`base_message n` and then decoding with pop in reverse order returns the
state exactly to `base_message n`.  Moreover a single encode followed
immediately by decode-and-pop with the same arguments is the identity on
any state whose lanes are at rest in `[RANS_L, RANS_H)`, for any precision
up to `RANS_L`, dyadic or not.  The original claim quantifies over
arbitrary precisions; that version is refuted by
`rans_invertibility_counterexample`, so the list part is stated here for
dividing precisions. -/
theorem rans_invertibility {n : Nat} {ops : List (Nat × Nat × Nat)}
    (hops : ∀ op ∈ ops,
      op.1 + op.2.1 ≤ op.2.2 ∧ 1 ≤ op.2.1 ∧ op.2.2 ∣ RANS_L) :
    decList (encList (base_message n) ops) ops.reverse = base_message n ∧
      ∀ (st : AnsState) (s f t : Nat),
        (∀ h ∈ st.1, RANS_L ≤ h ∧ h < RANS_H) → s + f ≤ t → 1 ≤ f →
        t ≤ RANS_L → decOp (encode st s f t) (s, f, t) = st := by
  constructor
  · apply decList_encList _ hops
    intro h hh
    have : h = RANS_L := List.eq_of_mem_replicate hh
    subst this
    exact ⟨le_refl _, by norm_num [RANS_L, RANS_H]⟩
  · intro st s f t hH hsf hf ht
    exact popLanes_encodeLanes st.2 hH hsf hf ht

/-- C2 counterexample: the operations `(3, 1, 1431655765)`, `(0, 1, 3)`,
`(0, 1, 2)` all have valid slices within their precisions, yet encoding
them onto `base_message 1` and decoding in reverse returns the state
`([4294967294], [])`, not `base_message 1 = ([4294967296], [])`: exact
invertibility fails for precisions that do not divide `RANS_L`. -/
theorem rans_invertibility_counterexample :
    (∀ op ∈ ([(3, 1, 1431655765), (0, 1, 3), (0, 1, 2)] :
        List (Nat × Nat × Nat)),
      op.1 + op.2.1 ≤ op.2.2 ∧ 1 ≤ op.2.1) ∧
    decList (encList (base_message 1)
        ([(3, 1, 1431655765), (0, 1, 3), (0, 1, 2)] :
          List (Nat × Nat × Nat)))
      ([(3, 1, 1431655765), (0, 1, 3), (0, 1, 2)] :
        List (Nat × Nat × Nat)).reverse ≠ base_message 1 := by
  decide

/-- C2 witness: the amended invertibility theorem applied at `n = 1` with
the single dyadic operation `(5, 3, 8)`. -/
theorem rans_invertibility_witness :
    decList (encList (base_message 1) [(5, 3, 8)])
      ([(5, 3, 8)] : List (Nat × Nat × Nat)).reverse = base_message 1 :=
  (rans_invertibility (by decide)).1

/-- C3 (amended): every multiset tree reachable from the empty multiset by
any sequence of `insert`, `remove` of a present symbol,
`insert_then_forward_lookup`, and `reverse_lookup_then_remove` at a valid
index satisfies, at every node, `left.size + right.size ≤ size` — that is,
`multiplicity_of_pivot_at_this_node = size − left.size − right.size ≥ 0` —
together with `size ≥ 1` and strict BST order.  The original claim's
per-node bound `multiplicity ≥ 1` is refuted by
`reachable_invariant_counterexample`: a removal can leave a pivot of
multiplicity 0 in place (a node the repository's own tests exhibit), so
only the `≥ 0` form is invariant. -/
theorem reachable_invariant {α : Type} [LinearOrder α] {m : MSTree α}
    (h : MSTree.Reachable m) : MSTree.validB m = true :=
  MSTree.validB_of_reachable h

/-- C3 counterexample: inserting 1 then 0 and removing at index 1 reaches
the tree `node 1 1 (node 1 0 ∅ ∅) ∅`, whose root stores the pivot 1 with
multiplicity `1 − 1 − 0 = 0`: the specification's per-node
`multiplicity ≥ 1` fails on a reachable tree. -/
theorem reachable_invariant_counterexample :
    MSTree.Reachable (MSTree.node 1 1 (MSTree.node 1 0 .empty .empty)
      (.empty : MSTree Nat)) ∧
    MSTree.strongValidB (MSTree.node 1 1 (MSTree.node 1 0 .empty .empty)
      (.empty : MSTree Nat)) = false := by
  constructor
  · refine MSTree.Reachable.rltr
      (MSTree.insert (MSTree.insert .empty 1) 0) 1 _ (1, 1) 1 ?_ ?_ ?_
    · exact MSTree.Reachable.insert _ 0
        (MSTree.Reachable.insert _ 1 MSTree.Reachable.empty)
    · decide
    · decide
  · decide

/-- C3 witness: the amended invariant applied to the reachable tree
`insert ∅ 5`. -/
theorem reachable_invariant_witness :
    MSTree.validB (MSTree.insert (.empty : MSTree Nat) 5) = true :=
  reachable_invariant (MSTree.Reachable.insert _ 5 MSTree.Reachable.empty)

/-- C4 (confirmed): after inserting `x` into a valid multiset,
`forward_lookup` finds `x` with a slice `(start, freq)` of positive
frequency, and `reverse_lookup` at every index of that slice returns the
same slice and the same symbol `x`. -/
theorem insert_lookup_consistency {α : Type} [LinearOrder α]
    {m : MSTree α} (hm : MSTree.validB m = true) (x : α) :
    ∃ start freq,
      MSTree.forward_lookup (MSTree.insert m x) x = some (start, freq) ∧
      1 ≤ freq ∧
      ∀ idx, start ≤ idx → idx < start + freq →
        MSTree.reverse_lookup (MSTree.insert m x) idx =
          some ((start, freq), x) := by
  have hv2 := MSTree.validB_insert hm x
  have hfl : MSTree.forward_lookup (MSTree.insert m x) x =
      some (MSTree.countLt (MSTree.insert m x) x,
        MSTree.count (MSTree.insert m x) x) := by
    rw [MSTree.forward_lookup_spec hv2 x,
      if_pos (MSTree.hasPivot_insert_self m x)]
  refine ⟨MSTree.countLt (MSTree.insert m x) x,
    MSTree.count (MSTree.insert m x) x, hfl, ?_, ?_⟩
  · rw [MSTree.count_insert_self hm]
    omega
  · intro idx h1 h2
    have hidx : idx < (MSTree.insert m x).size := by
      have hle := MSTree.countLt_add_count_le_size hv2 x
      omega
    obtain ⟨x2, hpiv, hrev, hle1, hle2⟩ :=
      MSTree.reverse_lookup_spec hv2 hidx
    rcases lt_trichotomy x2 x with hlt | heq | hgt
    · have h3 : MSTree.countLt (MSTree.insert m x) x2 +
          MSTree.count (MSTree.insert m x) x2 ≤
          MSTree.countLt (MSTree.insert m x) x :=
        MSTree.countLt_add_count_le hlt
      omega
    · subst heq
      exact hrev
    · have h3 : MSTree.countLt (MSTree.insert m x) x +
          MSTree.count (MSTree.insert m x) x ≤
          MSTree.countLt (MSTree.insert m x) x2 :=
        MSTree.countLt_add_count_le hgt
      omega

/-- C4 witness: the query-consistency theorem applied to the valid
two-element multiset `{1, 2}` with inserted symbol `1`. -/
theorem insert_lookup_consistency_witness :
    ∃ start freq,
      MSTree.forward_lookup
        (MSTree.insert (MSTree.build_multiset [1, 2]) 1) 1 =
          some (start, freq) ∧
      1 ≤ freq ∧
      ∀ idx, start ≤ idx → idx < start + freq →
        MSTree.reverse_lookup
          (MSTree.insert (MSTree.build_multiset [1, 2]) 1) idx =
            some ((start, freq), 1) :=
  insert_lookup_consistency (by decide) 1

/-- C5 (confirmed): the fused operations equal the composition of the
unfused ones.  `insert_then_forward_lookup m x` returns `insert m x`
together with the slice `forward_lookup` reads for `x` in the tree after
insertion (this part holds for arbitrary trees); and on a valid tree at a
valid index, `reverse_lookup_then_remove` returns exactly the slice and
symbol of `reverse_lookup` on the tree before removal, together with the
tree `remove` produces for that symbol. -/
theorem fused_equals_composed {α : Type} [LinearOrder α] {m : MSTree α}
    (hm : MSTree.validB m = true) (x : α) {idx : Nat}
    (hidx : idx < m.size) :
    ((MSTree.insert_then_forward_lookup m x).1 = MSTree.insert m x ∧
      MSTree.forward_lookup (MSTree.insert m x) x =
        some (MSTree.insert_then_forward_lookup m x).2) ∧
    ∃ m2 sl x2,
      MSTree.reverse_lookup_then_remove m idx = some (m2, sl, x2) ∧
      MSTree.reverse_lookup m idx = some (sl, x2) ∧
      MSTree.remove m x2 = some m2 := by
  refine ⟨⟨MSTree.itfl_fst m x, MSTree.forward_lookup_itfl m x⟩, ?_⟩
  obtain ⟨m2, sl, x2, hpiv, h1, h2, h3⟩ := MSTree.rltr_spec hm hidx
  exact ⟨m2, sl, x2, h1, h2, h3⟩

/-- C5 witness: the fusion theorem applied to the multiset `{3}` with
inserted symbol `1` and index `0`. -/
theorem fused_equals_composed_witness :
    ((MSTree.insert_then_forward_lookup (MSTree.build_multiset [3]) 1).1 =
        MSTree.insert (MSTree.build_multiset [3]) 1 ∧
      MSTree.forward_lookup
          (MSTree.insert (MSTree.build_multiset [3]) 1) 1 =
        some (MSTree.insert_then_forward_lookup
          (MSTree.build_multiset [3]) 1).2) ∧
    ∃ m2 sl x2,
      MSTree.reverse_lookup_then_remove (MSTree.build_multiset [3]) 0 =
        some (m2, sl, x2) ∧
      MSTree.reverse_lookup (MSTree.build_multiset [3]) 0 =
        some (sl, x2) ∧
      MSTree.remove (MSTree.build_multiset [3]) x2 = some m2 :=
  fused_equals_composed (by decide) 1 (by decide)

/-- C6 (confirmed): flattening the tree built from any finite list of
symbols yields exactly the sorted list: `to_sequence (build_multiset xs)`
is a permutation of `xs` that is sorted in nondecreasing order — each
symbol appears as often as its multiplicity, in ascending order. -/
theorem to_sequence_build_sorted {α : Type} [LinearOrder α]
    (xs : List α) :
    List.Perm (MSTree.to_sequence (MSTree.build_multiset xs)) xs ∧
    (MSTree.to_sequence (MSTree.build_multiset xs)).Sorted (· ≤ ·) :=
  ⟨MSTree.to_sequence_build_perm xs,
    MSTree.sorted_to_sequence (MSTree.validB_build xs)⟩

/-- C7 (confirmed): `remove` is a left inverse of `insert` on valid
multisets, returning the structurally identical tree; in particular
removing a symbol just inserted into the empty multiset collapses the
leaf back to the empty tree. -/
theorem remove_insert_id {α : Type} [LinearOrder α] {m : MSTree α}
    (hm : MSTree.validB m = true) (x : α) :
    MSTree.remove (MSTree.insert m x) x = some m ∧
      MSTree.remove (MSTree.insert (.empty : MSTree α) x) x =
        some .empty :=
  ⟨MSTree.remove_insert hm x,
    MSTree.remove_insert
      (show MSTree.validB (.empty : MSTree α) = true from rfl) x⟩

/-- C7 witness: insert-then-remove of `1` on the multiset `{1, 2}` and on
the empty multiset. -/
theorem remove_insert_id_witness :
    MSTree.remove (MSTree.insert (MSTree.build_multiset [1, 2]) 1) 1 =
        some (MSTree.build_multiset [1, 2]) ∧
      MSTree.remove (MSTree.insert (.empty : MSTree Nat) 1) 1 =
        some .empty :=
  remove_insert_id (by decide) 1

/-- C10 (confirmed): on a valid multiset, `forward_lookup m x` fails
(returns `none`, the model of `SymbolNotFound`) exactly when the search
reaches an empty subtree, which happens if and only if `x` is stored at
no node of `m`; when `x` is stored at a node it returns the slice
`(countLt m x, count m x)` without error — and, being a pure function, it
leaves `m` unchanged. -/
theorem forward_lookup_error_iff {α : Type} [LinearOrder α]
    {m : MSTree α} (hm : MSTree.validB m = true) (x : α) :
    (MSTree.forward_lookup m x = none ↔ MSTree.hasPivot m x = false) ∧
    (MSTree.hasPivot m x = true →
      MSTree.forward_lookup m x =
        some (MSTree.countLt m x, MSTree.count m x)) := by
  rw [MSTree.forward_lookup_spec hm x]
  constructor
  · cases hhp : MSTree.hasPivot m x <;> simp [hhp]
  · intro hp
    simp [hp]

/-- C10 witness: the lookup error characterization on the multiset
`{1, 2}` at the absent symbol `7`. -/
theorem forward_lookup_error_iff_witness :
    (MSTree.forward_lookup (MSTree.build_multiset [1, 2]) 7 = none ↔
      MSTree.hasPivot (MSTree.build_multiset [1, 2]) 7 = false) ∧
    (MSTree.hasPivot (MSTree.build_multiset [1, 2]) 7 = true →
      MSTree.forward_lookup (MSTree.build_multiset [1, 2]) 7 =
        some (MSTree.countLt (MSTree.build_multiset [1, 2]) 7,
          MSTree.count (MSTree.build_multiset [1, 2]) 7)) :=
  forward_lookup_error_iff (by decide) 7

/-- C9 (amended): the `ByteArray(max_size)` codec round-trips every byte
string whose length is strictly below `max_size`: for lanes at rest, bytes
under 256, at least one lane and at least `len(b)` lanes,
`max_size ≤ RANS_L`, the encode succeeds and the decode returns the
original state and exactly the bytes.  The original claim allows
`len(b) ≤ max_size`; `byteArray_roundtrip_counterexample` refutes that at
`len(b) = max_size`, where the length is stored modulo `max_size` and
decodes to `len(b) mod max_size ≠ len(b)` — matching the spec's own error
table, which raises `InvalidByteArraySize` when the size is `≥` the
configured maximum. -/
theorem byteArray_roundtrip {maxSize : Nat} {st : AnsState}
    {bytes : List Nat} (hH : ∀ h ∈ st.1, RANS_L ≤ h ∧ h < RANS_H)
    (hbytes : ∀ b ∈ bytes, b < 256) (hlen : bytes.length < maxSize)
    (hmax : maxSize ≤ RANS_L) (hone : 1 ≤ st.1.length)
    (hroom : bytes.length ≤ st.1.length) :
    ∃ st2, byteArrayEncode maxSize st bytes = some st2 ∧
      byteArrayDecode maxSize st2 = some (st, bytes) := by
  have hHtake : ∀ h ∈ st.1.take bytes.length, RANS_L ≤ h ∧ h < RANS_H :=
    fun h hh => hH h (List.mem_of_mem_take hh)
  have hst : ∀ b ∈ bytes, b + 1 ≤ 256 := fun b hb => by
    have := hbytes b hb
    omega
  have h256 : (256 : Nat) ≤ RANS_L := by norm_num [RANS_L]
  have hlen2 : (st.1.take bytes.length).length = bytes.length := by
    rw [List.length_take]
    omega
  obtain ⟨pr, henc, hdec⟩ :=
    decodeLanesUniform_encodeLanesVec st.2 hHtake hst h256 hlen2
  obtain ⟨sub, t1⟩ := pr
  have hsub_len : sub.length = bytes.length := by
    have := encodeLanesVec_length henc
    rw [hlen2] at this
    exact this
  have hsub_range : ∀ h2 ∈ sub, RANS_L ≤ h2 ∧ h2 < RANS_H :=
    encodeLanesVec_range st.2 hHtake hst (le_refl 1) h256
      (by norm_num [RANS_L]) henc
  cases hcomb : sub ++ st.1.drop bytes.length with
  | nil =>
    have hl := congrArg List.length hcomb
    simp only [List.length_append, hsub_len, List.length_drop,
      List.length_nil] at hl
    omega
  | cons h0 rest =>
    have hh0 : RANS_L ≤ h0 ∧ h0 < RANS_H := by
      have hmem : h0 ∈ sub ++ st.1.drop bytes.length := by
        rw [hcomb]
        simp
      rcases List.mem_append.mp hmem with h1 | h2
      · exact hsub_range h0 h1
      · exact hH h0 (List.mem_of_mem_drop h2)
    obtain ⟨hpop, hcf1, hcf2⟩ := pop1_encode1 t1 hh0.1 hh0.2
      (show bytes.length + 1 ≤ maxSize by omega) (le_refl 1) hmax
    have hcfeq : (encode1 h0 t1 bytes.length 1 maxSize).1 % maxSize =
        bytes.length := by omega
    refine ⟨((encode1 h0 t1 bytes.length 1 maxSize).1 :: rest,
      (encode1 h0 t1 bytes.length 1 maxSize).2), ?_, ?_⟩
    · simp only [byteArrayEncode, henc, hcomb]
    · simp only [byteArrayDecode, hcfeq, hpop]
      have htake : (h0 :: rest).take bytes.length = sub := by
        rw [← hcomb, ← hsub_len, List.take_left]
      have hdrop : (h0 :: rest).drop bytes.length = st.1.drop bytes.length := by
        rw [← hcomb, ← hsub_len, List.drop_left]
      rw [htake, hdrop, hdec]
      simp only [Option.some.injEq]
      rw [List.take_append_drop]

/-- C9 counterexample: with `max_size = 1` the byte string `[7]` has
length `1 ≤ max_size`, the encode from the base single-lane state
succeeds, yet the decode returns the empty byte string and a different
state, because the stored length `1 mod 1 = 0`: byte strings of length
equal to `max_size` are not handled. -/
theorem byteArray_roundtrip_counterexample :
    ([7] : List Nat).length ≤ 1 ∧
    (byteArrayEncode 1 ([2 ^ 32], []) [7]).isSome = true ∧
    (byteArrayEncode 1 ([2 ^ 32], []) [7]).bind (byteArrayDecode 1) ≠
      some ((([2 ^ 32], []) : AnsState), [7]) := by
  decide

/-- C9 witness: the amended theorem at `max_size = 5` with bytes
`[7, 200]` on a three-lane base state. -/
theorem byteArray_roundtrip_witness :
    ∃ st2, byteArrayEncode 5 ([2 ^ 32, 2 ^ 32, 2 ^ 32], []) [7, 200] =
        some st2 ∧
      byteArrayDecode 5 st2 =
        some ((([2 ^ 32, 2 ^ 32, 2 ^ 32], []) : AnsState), [7, 200]) :=
  byteArray_roundtrip (by decide) (by decide) (by decide) (by decide)
    (by decide) (by decide)

end ClaimTheorems

end MultisetComp
